import Mathlib

/-!
regen: random strings from a regular expression.

A shallow embedding of `regen.go`: the range types `r` and `rr`, the `Generator`
with `New`, `Limit`, `Seed`, `Generate`, and the recursive interpreter `generate`.

Modelling conventions.

* Go `int` and `rune` values are `Int`, and `int` has 64 bits. The sums
  `g.limit+1` of the star case and `re.Max+1` of the repeat case overflow when
  the operand is the largest `int`; they are taken through `wrapInt`. The other
  sums cannot overflow: `Intn(g.limit)+1` is at most `g.limit`, a loop counter
  stays below its bound, and the arithmetic on runes, `int(r.max)-int(r.min)+1`
  and the sum of a draw with `int(r.min)`, has 32-bit operands widened to `int`
  and a result between `r.min` and `r.max`.
* A Go `string` is the list of the code points it decodes to. The conversion
  `string(v)` of a rune yields the one code point `v` when `v` is a Unicode scalar
  value and U+FFFD otherwise, as the language specification prescribes.
* `*rand.Rand` is a stream of natural numbers: `Intn n` consumes the head of the
  stream and reduces it modulo `n`, and panics for `n <= 0` as `math/rand` does.
  Every value of `[0, n)` is a possible result and nothing is assumed about the
  distribution.
* `*syntax.Regexp` is a tree. `generate` writes to the `Max` field of repeat
  nodes, so it returns the tree it leaves behind together with the string and
  the advanced random source.
* A call either returns (`ok`), panics (`panic`), or exceeds the evaluation
  budget of the model (`fuel`). The budget bounds the recursion depth and the
  number of times one loop evaluates its condition.
-/

namespace Regen

/-! ## Outcomes -/

/-- Result of running a piece of Go code that may panic. -/
inductive Outcome (α : Type) where
  | ok (a : α)
  | panic
  | fuel

namespace Outcome

/-- Sequencing: a panic or an exhausted budget aborts the rest. -/
def bind {α β : Type} : Outcome α → (α → Outcome β) → Outcome β
  | ok a, f => f a
  | panic, _ => panic
  | fuel, _ => fuel

/-- Whether the call returned. -/
def isOk {α : Type} : Outcome α → Bool
  | ok _ => true
  | _ => false

/-- Whether the call panicked. -/
def isPanic {α : Type} : Outcome α → Bool
  | panic => true
  | _ => false

/-- The returned value, if the call returned. -/
def toOption {α : Type} : Outcome α → Option α
  | ok a => some a
  | _ => none

end Outcome

/-! ## The random source -/

/-- State of a `*rand.Rand`: the stream of raw values it will deliver. -/
abbrev Rand : Type := Nat → Nat

/-- The source after one value has been consumed. -/
def Rand.tail (rnd : Rand) : Rand := fun i => rnd (i + 1)

/-- `rand.Intn(n)`: a value of `[0, n)`; panics when `n <= 0`. -/
def Intn (rnd : Rand) (n : Int) : Outcome (Int × Rand) :=
  if n ≤ 0 then .panic else .ok ((rnd 0 : Int) % n, rnd.tail)

/-! ## Machine integers -/

/-- The largest value of a 64-bit `int`. -/
def maxInt : Int := 2 ^ 63 - 1

/-- The smallest value of a 64-bit `int`. -/
def minInt : Int := -2 ^ 63

/-- The `int` a sum `a + 1` evaluates to, given its exact value `x`: `x` itself
when it does not exceed `maxInt`, and `x` reduced modulo `2^64` into
`[-2^63, 2^63)` otherwise, so that `maxInt + 1` is `minInt`. (The operand `a`
is an `int`, so the sum cannot leave the range downwards.) -/
def wrapInt (x : Int) : Int :=
  if x ≤ maxInt then x else (x + 2 ^ 63) % 2 ^ 64 - 2 ^ 63

/-! ## Ranges -/

/-- `type r struct { min, max rune }`. -/
structure r where
  min : Int
  max : Int
deriving DecidableEq, Repr

/-- `type rr []r`. -/
abbrev rr : Type := List r

/-- `func (r r) inRange(v rune) bool`. -/
def r.inRange (x : r) (v : Int) : Bool :=
  decide (v ≥ x.min) && decide (v ≤ x.max)

/-- `func (r r) randRune(rand *rand.Rand) rune`. -/
def r.randRune (x : r) (rnd : Rand) : Outcome (Int × Rand) :=
  (Intn rnd (x.max - x.min + 1)).bind fun p => .ok (p.1 + x.min, p.2)

/-- `func (rr rr) inRange(v rune) bool`. -/
def rr.inRange : rr → Int → Bool
  | [], _ => false
  | x :: xs, v => if x.inRange v then true else rr.inRange xs v

/-- `func (rr rr) randRune(rand *rand.Rand) rune`: the index is drawn first, then
the rune inside the selected interval. -/
def rr.randRune (xs : rr) (rnd : Rand) : Outcome (Int × Rand) :=
  (Intn rnd (xs.length : Int)).bind fun p =>
    match xs.get? p.1.toNat with
    | some x => x.randRune p.2
    | none => .panic

/-! ## The syntax tree -/

/-- Operator tags of `syntax.Regexp`. -/
inductive Op where
  | OpNoMatch | OpEmptyMatch | OpLiteral | OpCharClass | OpAnyCharNotNL | OpAnyChar
  | OpBeginLine | OpEndLine | OpBeginText | OpEndText | OpWordBoundary | OpNoWordBoundary
  | OpCapture | OpStar | OpPlus | OpQuest | OpRepeat | OpConcat | OpAlternate
deriving DecidableEq, Repr

/-- A `syntax.Regexp` node: operator, subexpressions, rune payload, `Min`, `Max`.
`Sub0`, the one-element backing array of `Sub`, is not a separate field:
`Sub0[0]` is `Sub[0]` when the node has a subexpression and nil otherwise. -/
inductive Regexp where
  | mk (Op : Op) (Sub : List Regexp) (Rune : List Int) (Min Max : Int)
deriving Repr

namespace Regexp

/-- Field `Op`. -/
def op : Regexp → Op
  | mk o _ _ _ _ => o

/-- Field `Sub`. -/
def sub : Regexp → List Regexp
  | mk _ s _ _ _ => s

/-- Field `Rune`. -/
def rune : Regexp → List Int
  | mk _ _ rs _ _ => rs

/-- Field `Min`. -/
def min : Regexp → Int
  | mk _ _ _ m _ => m

/-- Field `Max`. -/
def max : Regexp → Int
  | mk _ _ _ _ m => m

end Regexp

/-! ## Strings -/

/-- Unicode scalar values: the code points a Go string can hold. -/
def validRune (v : Int) : Bool :=
  decide (0 ≤ v) && decide (v ≤ 0x10FFFF) && !(decide (0xD800 ≤ v) && decide (v ≤ 0xDFFF))

/-- The conversion `string(v)` of a rune. -/
def stringOfRune (v : Int) : List Int :=
  if validRune v then [v] else [0xFFFD]

/-- The loop `for _, r := range re.Rune { l += string(r) }`. -/
def literalString : List Int → List Int
  | [] => []
  | v :: rest => stringOfRune v ++ literalString rest

/-- The loop `for i := 0; i < len(re.Rune); i += 2 { rr = append(rr, r{re.Rune[i], re.Rune[i+1]}) }`;
with an odd number of runes the last `re.Rune[i+1]` is out of range. -/
def pairs : List Int → Outcome rr
  | [] => .ok []
  | [_] => .panic
  | a :: b :: rest => (pairs rest).bind fun xs => .ok (⟨a, b⟩ :: xs)

/-! ## The interpreter -/

/-- What a loop carries: the string `l` built so far, the subexpressions as the
body left them, and the random source. -/
abbrev LoopState : Type := List Int × List Regexp × Rand

/-- The inner loop `for _, re := range re.Sub { l += g.generate(re) }`. -/
def pass (gen : Regexp → Rand → Outcome (List Int × Regexp × Rand)) :
    List Regexp → List Int → Rand → Outcome LoopState
  | [], l, rnd => .ok (l, [], rnd)
  | re :: rest, l, rnd =>
    (gen re rnd).bind fun p =>
      (pass gen rest (l ++ p.1) p.2.2).bind fun q =>
        .ok (q.1, p.2.1 :: q.2.1, q.2.2)

/-- The outer loop `for i := i0; cond; i++ { body }`. The condition is evaluated
before every iteration and may draw from the random source; `n` bounds the number
of evaluations. -/
def forLoop (cond : Int → Rand → Outcome (Bool × Rand))
    (body : List Regexp → List Int → Rand → Outcome LoopState) :
    Nat → Int → LoopState → Outcome LoopState
  | 0, _, _ => .fuel
  | n + 1, i, st =>
    (cond i st.2.2).bind fun c =>
      if c.1 then
        (body st.2.1 st.1 c.2).bind fun st' => forLoop cond body n (i + 1) st'
      else
        .ok (st.1, st.2.1, c.2)

/-- Condition `i < g.rand.Intn(bound)` of the star and quest loops; `bound` is the
value of `g.limit+1`, or 2. -/
def drawCond (bound : Int) (i : Int) (rnd : Rand) : Outcome (Bool × Rand) :=
  (Intn rnd bound).bind fun p => .ok (decide (i < p.1), p.2)

/-- Condition `i < count` of the plus loop. -/
def countCond (count : Int) (i : Int) (rnd : Rand) : Outcome (Bool × Rand) :=
  .ok (decide (i < count), rnd)

/-- Condition `i < re.Min || i < randMax` of the repeat loop. -/
def repeatCond (mn randMax : Int) (i : Int) (rnd : Rand) : Outcome (Bool × Rand) :=
  .ok (decide (i < mn) || decide (i < randMax), rnd)

/-- `func (g *Generator) generate(re *syntax.Regexp) string` under `g.limit = limit`. -/
def generate (limit : Int) : Nat → Regexp → Rand → Outcome (List Int × Regexp × Rand)
  | 0, _, _ => .fuel
  | n + 1, .mk op sub rune mn mx, rnd =>
    match op with
    | .OpLiteral => .ok (literalString rune, .mk op sub rune mn mx, rnd)
    | .OpCharClass =>
      (pairs rune).bind fun cls =>
        (rr.randRune cls rnd).bind fun p =>
          .ok (stringOfRune p.1, .mk op sub rune mn mx, p.2)
    | .OpCapture =>
      match sub with
      | [] => .panic
      | c :: rest =>
        (generate limit n c rnd).bind fun p =>
          .ok (p.1, .mk op (p.2.1 :: rest) rune mn mx, p.2.2)
    | .OpStar =>
      (forLoop (drawCond (wrapInt (limit + 1))) (pass (generate limit n)) n 0
        ([], sub, rnd)).bind fun st =>
        .ok (st.1, .mk op st.2.1 rune mn mx, st.2.2)
    | .OpPlus =>
      (Intn rnd limit).bind fun d =>
        (forLoop (countCond (d.1 + 1)) (pass (generate limit n)) n 0 ([], sub, d.2)).bind fun st =>
          .ok (st.1, .mk op st.2.1 rune mn mx, st.2.2)
    | .OpQuest =>
      (forLoop (drawCond 2) (pass (generate limit n)) n 0 ([], sub, rnd)).bind fun st =>
        .ok (st.1, .mk op st.2.1 rune mn mx, st.2.2)
    | .OpRepeat =>
      let mx' := if mx = -1 ∨ limit < mx then limit else mx
      (if mx' > mn then Intn rnd (wrapInt (mx' + 1)) else .ok (0, rnd)).bind fun d =>
        (forLoop (repeatCond mn d.1) (pass (generate limit n)) n 0 ([], sub, d.2)).bind fun st =>
          .ok (st.1, .mk op st.2.1 rune mn mx', st.2.2)
    | .OpConcat =>
      (pass (generate limit n) sub [] rnd).bind fun st =>
        .ok (st.1, .mk op st.2.1 rune mn mx, st.2.2)
    | .OpAlternate =>
      (Intn rnd (sub.length : Int)).bind fun d =>
        match sub.get? d.1.toNat with
        | none => .panic
        | some c =>
          (generate limit n c d.2).bind fun p =>
            .ok (p.1, .mk op (sub.set d.1.toNat p.2.1) rune mn mx, p.2.2)
    | _ => .ok ([], .mk op sub rune mn mx, rnd)

/-! ## The generator -/

/-- `const defaultLimit = 10`. -/
def defaultLimit : Int := 10

/-- `type Generator struct { re *syntax.Regexp; rand *rand.Rand; limit int }`. -/
structure Generator where
  re : Regexp
  rand : Rand
  limit : Int

/-- `func New(regexp string) (*Generator, error)`. The parser `syntax.Parse` and the
source seeded from the clock belong to the standard library and are parameters. -/
def New (Parse : String → Except String Regexp) (clock : Rand) (regexp : String) :
    Except String Generator :=
  match Parse regexp with
  | .error err => .error err
  | .ok re => .ok { re := re, rand := clock, limit := defaultLimit }

/-- `func (g *Generator) Limit(value int)`. -/
def Limit (g : Generator) (value : Int) : Generator :=
  if value ≥ 0 then { g with limit := value } else g

/-- `func (g *Generator) Seed(seed int64)`; `NewSource` stands for
`rand.New(rand.NewSource(seed))`, a function of the seed alone. -/
def Seed (NewSource : Int → Rand) (g : Generator) (seed : Int) : Generator :=
  { g with rand := NewSource seed }

/-- `func (g *Generator) Generate() string`: the string and the generator afterwards. -/
def Generate (n : Nat) (g : Generator) : Outcome (List Int × Generator) :=
  (generate g.limit n g.re g.rand).bind fun p =>
    .ok (p.1, { re := p.2.1, rand := p.2.2, limit := g.limit })

/-- The string a call returned, if it returned. -/
def output {β : Type} (o : Outcome (List Int × β)) : Option (List Int) :=
  o.toOption.map Prod.fst

/-- The outputs of `k` consecutive `Generate` calls on one generator. -/
def Generates (n : Nat) : Nat → Generator → Outcome (List (List Int) × Generator)
  | 0, g => .ok ([], g)
  | k + 1, g =>
    (Generate n g).bind fun p =>
      (Generates n k p.2).bind fun q => .ok (p.1 :: q.1, q.2)

/-- The body of a loop run `k` times in a row. -/
def passes (body : List Regexp → List Int → Rand → Outcome LoopState) :
    Nat → LoopState → Outcome LoopState
  | 0, st => .ok st
  | k + 1, st => (body st.2.1 st.1 st.2.2).bind fun st' => passes body k st'

/-- The source that delivers `d` first and then behaves like `rnd`. -/
def Rand.cons (d : Nat) (rnd : Rand) : Rand
  | 0 => d
  | i + 1 => rnd i

/-! ## Shapes of trees -/

/-- A range set from which `rr.randRune` can draw: it is not empty and every
interval has `min <= max`. -/
def classOk (cls : rr) : Bool :=
  !cls.isEmpty && cls.all fun x => decide (x.min ≤ x.max)

/-- A character class node whose rune list is a non-empty list of pairs `lo <= hi`. -/
def isClass : Regexp → Bool
  | .mk .OpCharClass _ rune _ _ =>
    match pairs rune with
    | .ok cls => classOk cls
    | _ => false
  | _ => false

/-- Nodes that generate exactly one character: a literal of one rune, or a
character class from which a rune can be drawn. -/
def oneChar : Regexp → Bool
  | .mk .OpLiteral _ rune _ _ => rune.length == 1
  | re => isClass re

/-! ## Trees of the test patterns

The trees `syntax.Parse` builds for patterns of `regen_test.go`; only the fields
`generate` reads are shown, `Min` and `Max` are zero outside repeat nodes. -/

/-- A literal node. -/
def literal (runes : List Int) : Regexp := .mk .OpLiteral [] runes 0 0

/-- A character class node over the flat list of interval endpoints. -/
def charClass (runes : List Int) : Regexp := .mk .OpCharClass [] runes 0 0

/-- The pattern `[a-zA-Z]`. -/
def alphaClass : Regexp := charClass [65, 90, 97, 122]

/-- The pattern `[a-zA-Z]*`. -/
def alphaStar : Regexp := .mk .OpStar [alphaClass] [] 0 0

/-- The pattern `[a-zA-Z]{10}`. -/
def alphaRepeat10 : Regexp := .mk .OpRepeat [alphaClass] [] 10 10

/-- The pattern `a+`. -/
def aPlus : Regexp := .mk .OpPlus [literal [97]] [] 0 0

/-- The pattern `a{3}`. -/
def aRepeat3 : Regexp := .mk .OpRepeat [literal [97]] [] 3 3

/-- The pattern `a{3,6}`. -/
def aRepeat3to6 : Regexp := .mk .OpRepeat [literal [97]] [] 3 6

/-- An alternation of the literals `a` and `b`. -/
def aOrB : Regexp := .mk .OpAlternate [literal [97], literal [98]] [] 0 0

/-- The range sets of `TestRandRune` that have several intervals. -/
def alphabetic : rr := [⟨97, 122⟩, ⟨65, 90⟩]

/-- The range set `punctuation` of `TestRandRune`. -/
def punctuation : rr := [⟨33, 47⟩, ⟨58, 64⟩, ⟨91, 96⟩, ⟨123, 126⟩]

/-- The interval `[0-9]` of `TestRandRune`. -/
def digits : r := ⟨48, 57⟩

/-- A source that always delivers the same raw value. -/
def constRand (d : Nat) : Rand := fun _ => d

/-- A parser that knows the pattern of `TestSeed`. -/
def parseSeedPattern (regexp : String) : Except String Regexp :=
  if regexp = "[a-zA-Z]\x7b10\x7d" then .ok alphaRepeat10 else .error "unknown pattern"

/-- A stand-in for `rand.NewSource`: the raw values are an affine function of the seed. -/
def affineSource (seed : Int) : Rand := fun i => (seed.natAbs + 7 * i) % 1000

/-- A parser that knows the pattern of `TestLimit`. -/
def parseLimitPattern (regexp : String) : Except String Regexp :=
  if regexp = "[a-zA-Z]*" then .ok alphaStar else .error "unknown pattern"

/-! ## The language of a tree -/

/-- The strings a tree matches as a whole, after the operator documentation of
`regexp/syntax`: a literal matches its rune sequence, a character class one rune of
its range pairs, a capture what `Sub[0]` matches, star, plus, quest and repeat a
number of consecutive matches of `Sub[0]` (any, at least one, at most one,
between `Min` and `Max` with `Max == -1` for no upper bound), a concatenation the
matches of its subexpressions in order, an alternation the matches of one of them. -/
inductive Matches : Regexp → List Int → Prop
  | emptyMatch {sub : List Regexp} {rune : List Int} {mn mx : Int} :
    Matches (.mk .OpEmptyMatch sub rune mn mx) []
  | literal {sub : List Regexp} {rune : List Int} {mn mx : Int} :
    Matches (.mk .OpLiteral sub rune mn mx) rune
  | charClass {sub : List Regexp} {rune : List Int} {mn mx : Int} {cls : rr} {v : Int} :
    pairs rune = .ok cls → rr.inRange cls v = true →
    Matches (.mk .OpCharClass sub rune mn mx) [v]
  | anyCharNotNL {sub : List Regexp} {rune : List Int} {mn mx : Int} {v : Int} :
    validRune v = true → v ≠ 10 → Matches (.mk .OpAnyCharNotNL sub rune mn mx) [v]
  | anyChar {sub : List Regexp} {rune : List Int} {mn mx : Int} {v : Int} :
    validRune v = true → Matches (.mk .OpAnyChar sub rune mn mx) [v]
  | capture {c : Regexp} {rest : List Regexp} {rune : List Int} {mn mx : Int} {s : List Int} :
    Matches c s → Matches (.mk .OpCapture (c :: rest) rune mn mx) s
  | star {c : Regexp} {rest : List Regexp} {rune : List Int} {mn mx : Int}
    (ts : List (List Int)) :
    (∀ t ∈ ts, Matches c t) → Matches (.mk .OpStar (c :: rest) rune mn mx) ts.flatten
  | plus {c : Regexp} {rest : List Regexp} {rune : List Int} {mn mx : Int}
    (ts : List (List Int)) :
    1 ≤ ts.length → (∀ t ∈ ts, Matches c t) → Matches (.mk .OpPlus (c :: rest) rune mn mx) ts.flatten
  | quest {c : Regexp} {rest : List Regexp} {rune : List Int} {mn mx : Int}
    (ts : List (List Int)) :
    ts.length ≤ 1 → (∀ t ∈ ts, Matches c t) → Matches (.mk .OpQuest (c :: rest) rune mn mx) ts.flatten
  | rep {c : Regexp} {rest : List Regexp} {rune : List Int} {mn mx : Int}
    (ts : List (List Int)) :
    mn ≤ (ts.length : Int) → (mx = -1 ∨ (ts.length : Int) ≤ mx) → (∀ t ∈ ts, Matches c t) →
    Matches (.mk .OpRepeat (c :: rest) rune mn mx) ts.flatten
  | concatNil {rune : List Int} {mn mx : Int} : Matches (.mk .OpConcat [] rune mn mx) []
  | concatCons {c : Regexp} {rest : List Regexp} {rune : List Int} {mn mx : Int}
    {s t : List Int} :
    Matches c s → Matches (.mk .OpConcat rest rune mn mx) t →
    Matches (.mk .OpConcat (c :: rest) rune mn mx) (s ++ t)
  | alternate {c : Regexp} {sub : List Regexp} {rune : List Int} {mn mx : Int} {s : List Int} :
    c ∈ sub → Matches c s → Matches (.mk .OpAlternate sub rune mn mx) s

/-! ## Conditions on trees -/

mutual
/-- Every node of the tree satisfies `p`. -/
def allNodes (p : Regexp → Bool) : Regexp → Bool
  | .mk op sub rune mn mx => p (.mk op sub rune mn mx) && allNodesList p sub
/-- Every node of every tree of the list satisfies `p`. -/
def allNodesList (p : Regexp → Bool) : List Regexp → Bool
  | [] => true
  | c :: rest => allNodes p c && allNodesList p rest
end

/-- Node kinds that produce characters, in the shape the parser gives them: a
character class has a non-empty list of pairs `lo <= hi`; capture, star, plus,
quest and repeat have one subexpression; a repeat has `0 <= Min` and `Min <= Max`
or `Max == -1`; an alternation has a subexpression. -/
def nodeOk : Regexp → Bool
  | .mk .OpLiteral _ _ _ _ => true
  | .mk .OpCharClass sub rune mn mx => isClass (.mk .OpCharClass sub rune mn mx)
  | .mk .OpCapture sub _ _ _ => sub.length == 1
  | .mk .OpStar sub _ _ _ => sub.length == 1
  | .mk .OpPlus sub _ _ _ => sub.length == 1
  | .mk .OpQuest sub _ _ _ => sub.length == 1
  | .mk .OpRepeat sub _ mn mx =>
    sub.length == 1 && decide (0 ≤ mn) && (decide (mx = -1) || decide (mn ≤ mx))
  | .mk .OpConcat _ _ _ _ => true
  | .mk .OpAlternate sub _ _ _ => !sub.isEmpty
  | _ => false

/-- Trees built only from literal, non-empty character class, capture,
concatenation, alternation, quest, star, plus and repeat nodes. -/
def wellFormed (re : Regexp) : Bool := allNodes nodeOk re

/-- An interval of Unicode scalar values. -/
def scalarRange (x : r) : Bool :=
  decide (0 ≤ x.min) && decide (x.max ≤ 0x10FFFF) &&
    (decide (x.max < 0xD800) || decide (0xDFFF < x.min))

/-- A range set whose members survive the conversion to a string: all its
intervals hold scalar values only, or it contains U+FFFD. -/
def classEncodable (cls : rr) : Bool :=
  cls.all scalarRange || rr.inRange cls 0xFFFD

/-- The runes of a literal are scalar values and a character class is encodable. -/
def nodeEncodable : Regexp → Bool
  | .mk .OpLiteral _ rune _ _ => rune.all validRune
  | .mk .OpCharClass _ rune _ _ =>
    match pairs rune with
    | .ok cls => classEncodable cls
    | _ => false
  | _ => true

/-- Every literal and every character class of the tree is encodable. -/
def encodable (re : Regexp) : Bool := allNodes nodeEncodable re

mutual
/-- Height of a tree; a leaf has depth 1. -/
def depth : Regexp → Nat
  | .mk _ sub _ _ _ => depthList sub + 1
/-- The largest depth in a list of trees. -/
def depthList : List Regexp → Nat
  | [] => 0
  | c :: rest => Nat.max (depth c) (depthList rest)
end

mutual
/-- The largest `Min` of a node of the tree. -/
def maxMin : Regexp → Nat
  | .mk _ sub _ mn _ => Nat.max mn.toNat (maxMinList sub)
/-- The largest `Min` of a node in a list of trees. -/
def maxMinList : List Regexp → Nat
  | [] => 0
  | c :: rest => Nat.max (maxMin c) (maxMinList rest)
end

/-- An evaluation budget that suffices for `generate` under a limit: the depth of
the tree for the recursion, and the limit or the largest `Min` for the loops. -/
def budget (limit : Int) (re : Regexp) : Nat :=
  depth re + Nat.max limit.toNat (maxMin re) + 1

/-- How `generate` may have changed a `Max` field: not at all, or to a value that
is not negative and not above the original bound. -/
def MaxLowered (mx0 mx : Int) : Prop :=
  mx = mx0 ∨ (0 ≤ mx ∧ (mx0 = -1 ∨ mx ≤ mx0))

mutual
/-- The tree `re` is `re0` after earlier `generate` calls: the same tree up to
lowered `Max` fields. -/
inductive Lowered : Regexp → Regexp → Prop
  | mk {op : Op} {sub0 sub : List Regexp} {rune : List Int} {mn mx0 mx : Int} :
    LoweredList sub0 sub → MaxLowered mx0 mx →
    Lowered (.mk op sub0 rune mn mx0) (.mk op sub rune mn mx)
/-- Pointwise `Lowered` on lists of subexpressions. -/
inductive LoweredList : List Regexp → List Regexp → Prop
  | nil : LoweredList [] []
  | cons {c0 c : Regexp} {rest0 rest : List Regexp} :
    Lowered c0 c → LoweredList rest0 rest → LoweredList (c0 :: rest0) (c :: rest)
end

/-- The pattern `a?`. -/
def aQuest : Regexp := .mk .OpQuest [literal [97]] [] 0 0

/-- The pattern `a{3,}`. -/
def aRepeat3up : Regexp := .mk .OpRepeat [literal [97]] [] 3 (-1)

/-- The pattern `[^abc]`. -/
def notAbc : Regexp := charClass [0, 96, 100, 0x10FFFF]

/-- The pattern `\x{D800}`: a literal whose rune is a surrogate code point. -/
def surrogateLiteral : Regexp := literal [0xD800]

/-- The pattern `[^\x{FFFD}]`: every code point except U+FFFD. -/
def notReplacement : Regexp := charClass [0, 0xFFFC, 0xFFFE, 0x10FFFF]

/-! ## Further shapes and test trees -/

/-- Operators for which `generate` falls out of the switch or returns `""` at once. -/
def nonProducing : Op → Bool
  | .OpNoMatch | .OpEmptyMatch | .OpBeginLine | .OpEndLine | .OpBeginText | .OpEndText
  | .OpAnyChar | .OpAnyCharNotNL | .OpWordBoundary | .OpNoWordBoundary => true
  | _ => false

/-- The pattern `.`: any character except a newline. -/
def anyDot : Regexp := .mk .OpAnyCharNotNL [] [] 0 0

/-- The pattern `a*`. -/
def aStar : Regexp := .mk .OpStar [literal [97]] [] 0 0

mutual
/-- The tree `re'` is `re` up to the `Max` field of repeat nodes: operators,
subexpressions, rune payloads and `Min` agree, and `Max` agrees outside repeat
nodes. -/
inductive MaxOnly : Regexp → Regexp → Prop
  | mk {op : Op} {sub sub' : List Regexp} {rune : List Int} {mn mx mx' : Int} :
    MaxOnlyList sub sub' → (op ≠ .OpRepeat → mx' = mx) →
    MaxOnly (.mk op sub rune mn mx) (.mk op sub' rune mn mx')
/-- Pointwise `MaxOnly` on lists of subexpressions. -/
inductive MaxOnlyList : List Regexp → List Regexp → Prop
  | nil : MaxOnlyList [] []
  | cons {c c' : Regexp} {rest rest' : List Regexp} :
    MaxOnly c c' → MaxOnlyList rest rest' → MaxOnlyList (c :: rest) (c' :: rest')
end

/-- What `generate` needs of a node to stay clear of a panic: a character class
has a non-empty list of pairs `lo <= hi`, an alternation has a subexpression, a
capture has its subexpression (`Sub0[0]` is not nil) and a repeat has `0 <= Min`. -/
def nodeSafe : Regexp → Bool
  | .mk .OpCharClass sub rune mn mx => isClass (.mk .OpCharClass sub rune mn mx)
  | .mk .OpAlternate sub _ _ _ => !sub.isEmpty
  | .mk .OpCapture sub _ _ _ => !sub.isEmpty
  | .mk .OpRepeat _ _ mn _ => decide (0 ≤ mn)
  | _ => true

/-- Every node of the tree is safe. -/
def safeTree (re : Regexp) : Bool := allNodes nodeSafe re

/-- The two conditions on nodes that concern draws from a character class and the
choice among alternatives: a character class has a non-empty list of pairs
`lo <= hi`, and an alternation has a subexpression. -/
def nodeDrawOk : Regexp → Bool
  | .mk .OpCharClass sub rune mn mx => isClass (.mk .OpCharClass sub rune mn mx)
  | .mk .OpAlternate sub _ _ _ => !sub.isEmpty
  | _ => true

/-- Every character class and every alternation of the tree satisfies `nodeDrawOk`. -/
def drawOkTree (re : Regexp) : Bool := allNodes nodeDrawOk re

/-! ## Basic facts -/

@[simp]
theorem Outcome.bind_ok {α β : Type} (a : α) (f : α → Outcome β) :
    (Outcome.ok a).bind f = f a := rfl

@[simp]
theorem Outcome.bind_panic {α β : Type} (f : α → Outcome β) :
    (Outcome.panic : Outcome α).bind f = .panic := rfl

@[simp]
theorem Outcome.bind_fuel {α β : Type} (f : α → Outcome β) :
    (Outcome.fuel : Outcome α).bind f = .fuel := rfl

theorem Outcome.bind_eq_ok {α β : Type} (o : Outcome α) (f : α → Outcome β) (b : β)
    (h : o.bind f = .ok b) : ∃ a, o = .ok a ∧ f a = .ok b := by
  cases o with
  | ok a => exact ⟨a, rfl, h⟩
  | panic => cases h
  | fuel => cases h

theorem Intn_of_pos (rnd : Rand) (n : Int) (h : 0 < n) :
    Intn rnd n = .ok ((rnd 0 : Int) % n, rnd.tail) := by
  unfold Intn
  rw [if_neg (not_le.mpr h)]

theorem Intn_of_nonpos (rnd : Rand) (n : Int) (h : n ≤ 0) : Intn rnd n = .panic := by
  unfold Intn
  rw [if_pos h]

theorem Intn_bounds (rnd : Rand) (n : Int) (h : 0 < n) :
    0 ≤ (rnd 0 : Int) % n ∧ (rnd 0 : Int) % n < n :=
  ⟨Int.emod_nonneg _ (ne_of_gt h), Int.emod_lt_of_pos _ h⟩

theorem Intn_eq_ok (rnd : Rand) (n : Int) (p : Int × Rand) (h : Intn rnd n = .ok p) :
    0 < n ∧ 0 ≤ p.1 ∧ p.1 < n := by
  by_cases hn : n ≤ 0
  · rw [Intn_of_nonpos rnd n hn] at h; cases h
  · have hb := Intn_bounds rnd n (by omega)
    rw [Intn_of_pos rnd n (by omega)] at h
    simp only [Outcome.ok.injEq] at h
    subst h
    exact ⟨by omega, hb.1, hb.2⟩

theorem wrapInt_of_le (x : Int) (h : x ≤ maxInt) : wrapInt x = x := by
  unfold wrapInt
  rw [if_pos h]

theorem wrapInt_le (x : Int) : wrapInt x ≤ x := by
  unfold wrapInt
  by_cases h : x ≤ maxInt
  · rw [if_pos h]
  · rw [if_neg h]
    have h1 : (x + 2 ^ 63) % 2 ^ 64 < 2 ^ 64 := Int.emod_lt_of_pos _ (by norm_num)
    unfold maxInt at h
    omega

theorem wrapInt_succ_maxInt : wrapInt (maxInt + 1) = minInt := by
  decide

theorem r_randRune_spec (x : r) (rnd : Rand) (h : x.min ≤ x.max) :
    x.randRune rnd = .ok ((rnd 0 : Int) % (x.max - x.min + 1) + x.min, rnd.tail) ∧
      x.inRange ((rnd 0 : Int) % (x.max - x.min + 1) + x.min) = true := by
  have hpos : 0 < x.max - x.min + 1 := by omega
  have hb := Intn_bounds rnd _ hpos
  refine ⟨?_, ?_⟩
  · unfold r.randRune
    rw [Intn_of_pos rnd _ hpos]
    rfl
  · unfold r.inRange
    simp only [ge_iff_le, Bool.and_eq_true, decide_eq_true_eq]
    omega

theorem rr_inRange_of_mem (xs : rr) (x : r) (v : Int) (hx : x ∈ xs)
    (hv : x.inRange v = true) : rr.inRange xs v = true := by
  induction xs with
  | nil => cases hx
  | cons y ys ih =>
    unfold rr.inRange
    rcases List.mem_cons.mp hx with rfl | hmem
    · rw [if_pos hv]
    · by_cases hy : y.inRange v = true
      · rw [if_pos hy]
      · rw [if_neg hy]; exact ih hmem

theorem rr_randRune_spec (xs : rr) (rnd : Rand) (hne : xs ≠ []) :
    ∃ x, xs.get? ((rnd 0 : Int) % (xs.length : Int)).toNat = some x ∧
      rr.randRune xs rnd = x.randRune rnd.tail := by
  have hlen : 0 < (xs.length : Int) := by
    have : 0 < xs.length := List.length_pos.mpr hne
    exact_mod_cast this
  have hb := Intn_bounds rnd _ hlen
  have hidx : ((rnd 0 : Int) % (xs.length : Int)).toNat < xs.length := by omega
  refine ⟨xs.get ⟨_, hidx⟩, List.get?_eq_get hidx, ?_⟩
  unfold rr.randRune
  rw [Intn_of_pos rnd _ hlen]
  simp only [Outcome.bind_ok]
  rw [List.get?_eq_get hidx]

theorem randRune_inRange_aux (xs : rr) (rnd : Rand) (hne : xs ≠ [])
    (hall : ∀ x ∈ xs, x.min ≤ x.max) :
    ∃ v rnd', rr.randRune xs rnd = .ok (v, rnd') ∧ rr.inRange xs v = true := by
  obtain ⟨x, hget, heq⟩ := rr_randRune_spec xs rnd hne
  have hmem : x ∈ xs := List.get?_mem hget
  have hx := r_randRune_spec x rnd.tail (hall x hmem)
  exact ⟨_, _, heq.trans hx.1, rr_inRange_of_mem xs x _ hmem hx.2⟩

/-! ## Range membership -/

/-- C7: for an interval with `min <= max`, `r.randRune` returns a code point inside
the interval, and for a non-empty range set of such intervals `rr.randRune` returns
a code point that `rr.inRange` accepts, whatever the state of the random source. -/
theorem randRune_inRange :
    (∀ (x : r) (rnd : Rand), x.min ≤ x.max →
      ∃ v rnd', x.randRune rnd = .ok (v, rnd') ∧ x.inRange v = true) ∧
    (∀ (xs : rr) (rnd : Rand), xs ≠ [] → (∀ x ∈ xs, x.min ≤ x.max) →
      ∃ v rnd', rr.randRune xs rnd = .ok (v, rnd') ∧ rr.inRange xs v = true) := by
  refine ⟨?_, ?_⟩
  · intro x rnd h
    exact ⟨_, _, (r_randRune_spec x rnd h).1, (r_randRune_spec x rnd h).2⟩
  · intro xs rnd hne hall
    exact randRune_inRange_aux xs rnd hne hall

/-! ## Loops -/

theorem generate_zero (limit : Int) (re : Regexp) (rnd : Rand) :
    generate limit 0 re rnd = .fuel := by
  cases re; rfl

theorem generate_star (limit : Int) (n : Nat) (sub : List Regexp) (rune : List Int)
    (mn mx : Int) (rnd : Rand) :
    generate limit (n + 1) (.mk .OpStar sub rune mn mx) rnd =
      (forLoop (drawCond (wrapInt (limit + 1))) (pass (generate limit n)) n 0
        ([], sub, rnd)).bind fun st =>
        .ok (st.1, .mk .OpStar st.2.1 rune mn mx, st.2.2) := rfl

theorem generate_plus (limit : Int) (n : Nat) (sub : List Regexp) (rune : List Int)
    (mn mx : Int) (rnd : Rand) :
    generate limit (n + 1) (.mk .OpPlus sub rune mn mx) rnd =
      (Intn rnd limit).bind fun d =>
        (forLoop (countCond (d.1 + 1)) (pass (generate limit n)) n 0 ([], sub, d.2)).bind fun st =>
          .ok (st.1, .mk .OpPlus st.2.1 rune mn mx, st.2.2) := rfl

theorem generate_quest (limit : Int) (n : Nat) (sub : List Regexp) (rune : List Int)
    (mn mx : Int) (rnd : Rand) :
    generate limit (n + 1) (.mk .OpQuest sub rune mn mx) rnd =
      (forLoop (drawCond 2) (pass (generate limit n)) n 0 ([], sub, rnd)).bind fun st =>
        .ok (st.1, .mk .OpQuest st.2.1 rune mn mx, st.2.2) := rfl

theorem generate_repeat (limit : Int) (n : Nat) (sub : List Regexp) (rune : List Int)
    (mn mx : Int) (rnd : Rand) :
    generate limit (n + 1) (.mk .OpRepeat sub rune mn mx) rnd =
      ((if (if mx = -1 ∨ limit < mx then limit else mx) > mn
          then Intn rnd (wrapInt ((if mx = -1 ∨ limit < mx then limit else mx) + 1))
          else .ok (0, rnd)).bind fun d =>
        (forLoop (repeatCond mn d.1) (pass (generate limit n)) n 0 ([], sub, d.2)).bind fun st =>
          .ok (st.1, .mk .OpRepeat st.2.1 rune mn
            (if mx = -1 ∨ limit < mx then limit else mx), st.2.2)) := rfl

theorem generate_concat (limit : Int) (n : Nat) (sub : List Regexp) (rune : List Int)
    (mn mx : Int) (rnd : Rand) :
    generate limit (n + 1) (.mk .OpConcat sub rune mn mx) rnd =
      (pass (generate limit n) sub [] rnd).bind fun st =>
        .ok (st.1, .mk .OpConcat st.2.1 rune mn mx, st.2.2) := rfl

theorem generate_alternate (limit : Int) (n : Nat) (sub : List Regexp) (rune : List Int)
    (mn mx : Int) (rnd : Rand) :
    generate limit (n + 1) (.mk .OpAlternate sub rune mn mx) rnd =
      (Intn rnd (sub.length : Int)).bind fun d =>
        match sub.get? d.1.toNat with
        | none => .panic
        | some c =>
          (generate limit n c d.2).bind fun p =>
            .ok (p.1, .mk .OpAlternate (sub.set d.1.toNat p.2.1) rune mn mx, p.2.2) := rfl

theorem generate_capture (limit : Int) (n : Nat) (c : Regexp) (rest : List Regexp)
    (rune : List Int) (mn mx : Int) (rnd : Rand) :
    generate limit (n + 1) (.mk .OpCapture (c :: rest) rune mn mx) rnd =
      (generate limit n c rnd).bind fun p =>
        .ok (p.1, .mk .OpCapture (p.2.1 :: rest) rune mn mx, p.2.2) := rfl

theorem generate_literal (limit : Int) (n : Nat) (sub : List Regexp) (rune : List Int)
    (mn mx : Int) (rnd : Rand) :
    generate limit (n + 1) (.mk .OpLiteral sub rune mn mx) rnd =
      .ok (literalString rune, .mk .OpLiteral sub rune mn mx, rnd) := rfl

theorem generate_charClass (limit : Int) (n : Nat) (sub : List Regexp) (rune : List Int)
    (mn mx : Int) (rnd : Rand) :
    generate limit (n + 1) (.mk .OpCharClass sub rune mn mx) rnd =
      (pairs rune).bind fun cls =>
        (rr.randRune cls rnd).bind fun p =>
          .ok (stringOfRune p.1, .mk .OpCharClass sub rune mn mx, p.2) := rfl

theorem forLoop_succ (cond : Int → Rand → Outcome (Bool × Rand))
    (body : List Regexp → List Int → Rand → Outcome LoopState) (n : Nat) (i : Int)
    (st : LoopState) :
    forLoop cond body (n + 1) i st =
      (cond i st.2.2).bind fun c =>
        if c.1 then (body st.2.1 st.1 c.2).bind fun st' => forLoop cond body n (i + 1) st'
        else .ok (st.1, st.2.1, c.2) := rfl

theorem repeatCond_eq (mn d : Int) : repeatCond mn d = countCond (max mn d) := by
  funext i rnd
  unfold repeatCond countCond
  congr 2
  by_cases h1 : i < mn <;> by_cases h2 : i < d <;> simp [h1, h2, lt_max_iff]

/-- A loop whose condition is `i < count` runs its body `count - i` times. -/
theorem forLoop_countCond (body : List Regexp → List Int → Rand → Outcome LoopState)
    (count : Int) :
    ∀ (k n : Nat) (i : Int) (st : LoopState), (count - i).toNat = k → k < n →
      forLoop (countCond count) body n i st = passes body k st := by
  intro k
  induction k with
  | zero =>
    intro n i st hk hn
    obtain ⟨m, rfl⟩ : ∃ m, n = m + 1 := ⟨n - 1, by omega⟩
    have hlt : ¬ i < count := by omega
    rw [forLoop_succ]
    simp [countCond, hlt, passes]
  | succ k ih =>
    intro n i st hk hn
    obtain ⟨m, rfl⟩ : ∃ m, n = m + 1 := ⟨n - 1, by omega⟩
    have hlt : i < count := by omega
    rw [forLoop_succ]
    simp only [countCond, hlt, decide_True, Outcome.bind_ok, if_true, passes]
    congr 1
    funext st'
    exact ih m (i + 1) st' (by omega) (by omega)

/-- Loop rule: an invariant that every pass re-establishes holds when the loop
ends; the loop ends after at least `lo` and at most `hi` passes when its
condition is true below `lo` and false from `hi` on. -/
theorem forLoop_inv (cond : Int → Rand → Outcome (Bool × Rand))
    (body : List Regexp → List Int → Rand → Outcome LoopState)
    (Inv : Int → List Int → List Regexp → Prop) (lo hi : Int)
    (hc : ∀ i rnd, ∃ b rnd', cond i rnd = .ok (b, rnd') ∧ (i < lo → b = true) ∧
      (hi ≤ i → b = false))
    (hb : ∀ i l sub rnd, Inv i l sub → i < hi →
      ∃ l' sub' rnd', body sub l rnd = .ok (l', sub', rnd') ∧ Inv (i + 1) l' sub') :
    ∀ (n : Nat) (i : Int) (l : List Int) (sub : List Regexp) (rnd : Rand),
      Inv i l sub → (hi - i).toNat < n →
      ∃ j l' sub' rnd', forLoop cond body n i (l, sub, rnd) = .ok (l', sub', rnd') ∧
        Inv j l' sub' ∧ max i lo ≤ j ∧ j ≤ max i hi := by
  intro n
  induction n with
  | zero => intro i l sub rnd _ hn; omega
  | succ n ih =>
    intro i l sub rnd hinv hn
    obtain ⟨b, rnd', hcond, hlo, hhi⟩ := hc i rnd
    rw [forLoop_succ]
    simp only [hcond, Outcome.bind_ok]
    cases b with
    | false =>
      have hge : lo ≤ i := by
        by_contra hcon
        have := hlo (by omega)
        cases this
      refine ⟨i, l, sub, rnd', by simp, hinv, by simp [hge], le_max_left _ _⟩
    | true =>
      have hlt : i < hi := by
        by_contra hcon
        have := hhi (by omega)
        cases this
      obtain ⟨l1, sub1, rnd1, hbody, hinv1⟩ := hb i l sub rnd' hinv hlt
      obtain ⟨j, l2, sub2, rnd2, hloop, hinv2, hj1, hj2⟩ :=
        ih (i + 1) l1 sub1 rnd1 hinv1 (by omega)
      refine ⟨j, l2, sub2, rnd2, by simp [hbody, hloop], hinv2, ?_, ?_⟩
      · have h1 : i + 1 ≤ j := le_trans (le_max_left _ _) hj1
        have h2 : lo ≤ j := le_trans (le_max_right _ _) hj1
        exact max_le (by omega) h2
      · have h3 : max (i + 1) hi = hi := max_eq_right (by omega)
        have h4 : max i hi = hi := max_eq_right (by omega)
        rw [h4]; rw [h3] at hj2; exact hj2

/-! ## The generator's settings -/

/-- C5: `Limit(v)` sets the limit to `v` when `v >= 0` and keeps the previous limit
when `v < 0`; the tree and the random source are untouched in both cases. `Limit`
is a total function, so the call cannot fail. -/
theorem Limit_spec (g : Generator) (v : Int) :
    (0 ≤ v → (Limit g v).limit = v) ∧ (v < 0 → (Limit g v).limit = g.limit) ∧
      (Limit g v).re = g.re ∧ (Limit g v).rand = g.rand := by
  unfold Limit
  by_cases h : v ≥ 0
  · rw [if_pos h]
    exact ⟨fun _ => rfl, fun h' => absurd h (by omega), rfl, rfl⟩
  · rw [if_neg h]
    exact ⟨fun h' => absurd h' (by omega), fun _ => rfl, rfl, rfl⟩

theorem Limit_spec_witness :
    (Limit ⟨alphaStar, constRand 0, defaultLimit⟩ 0).limit = 0 ∧
      (Limit ⟨alphaStar, constRand 0, defaultLimit⟩ (-1)).limit = defaultLimit :=
  ⟨(Limit_spec ⟨alphaStar, constRand 0, defaultLimit⟩ 0).1 (by decide),
    (Limit_spec ⟨alphaStar, constRand 0, defaultLimit⟩ (-1)).2.1 (by decide)⟩

theorem randRune_inRange_witness :
    (∃ v rnd', digits.randRune (constRand 5) = .ok (v, rnd') ∧ digits.inRange v = true) ∧
      (∃ v rnd', rr.randRune punctuation (constRand 5) = .ok (v, rnd') ∧
        rr.inRange punctuation v = true) :=
  ⟨randRune_inRange.1 digits (constRand 5) (by decide),
    randRune_inRange.2 punctuation (constRand 5) (by decide) (by decide)⟩

/-- C3: two generators built by `New` from the same pattern, with whatever sources
the clock gave them, set to equal limits and given `Seed(s)` with the same `s`,
are in the same state; hence the first `Generate` call returns the same string on
both, and so does every later call of the same call sequence (`Generates`
collects the strings of `k` calls). -/
theorem Seed_deterministic (Parse : String → Except String Regexp) (NewSource : Int → Rand)
    (clock1 clock2 : Rand) (pattern : String) (g1 g2 : Generator)
    (h1 : New Parse clock1 pattern = .ok g1) (h2 : New Parse clock2 pattern = .ok g2)
    (L s : Int) (n k : Nat) :
    Seed NewSource (Limit g1 L) s = Seed NewSource (Limit g2 L) s ∧
      Generate n (Seed NewSource (Limit g1 L) s) = Generate n (Seed NewSource (Limit g2 L) s) ∧
      Generates n k (Seed NewSource (Limit g1 L) s) =
        Generates n k (Seed NewSource (Limit g2 L) s) := by
  have hstate : Seed NewSource (Limit g1 L) s = Seed NewSource (Limit g2 L) s := by
    unfold New at h1 h2
    cases hp : Parse pattern with
    | error e => rw [hp] at h1; cases h1
    | ok re =>
      rw [hp] at h1 h2
      cases h1; cases h2
      unfold Seed Limit
      by_cases hL : L ≥ 0
      · simp only [if_pos hL]
      · simp only [if_neg hL]
  rw [hstate]
  exact ⟨rfl, rfl, rfl⟩

theorem Seed_deterministic_witness :
    Seed affineSource (Limit ⟨alphaRepeat10, constRand 1, defaultLimit⟩ 10) 42 =
        Seed affineSource (Limit ⟨alphaRepeat10, constRand 2, defaultLimit⟩ 10) 42 ∧
      Generate 20 (Seed affineSource (Limit ⟨alphaRepeat10, constRand 1, defaultLimit⟩ 10) 42) =
        Generate 20 (Seed affineSource (Limit ⟨alphaRepeat10, constRand 2, defaultLimit⟩ 10) 42) ∧
      Generates 20 3 (Seed affineSource (Limit ⟨alphaRepeat10, constRand 1, defaultLimit⟩ 10) 42) =
        Generates 20 3 (Seed affineSource (Limit ⟨alphaRepeat10, constRand 2, defaultLimit⟩ 10) 42) :=
  Seed_deterministic parseSeedPattern affineSource (constRand 1) (constRand 2) "[a-zA-Z]\x7b10\x7d"
    ⟨alphaRepeat10, constRand 1, defaultLimit⟩ ⟨alphaRepeat10, constRand 2, defaultLimit⟩
    rfl rfl 10 42 20 3

/-! ## Plus under limit 0 -/

/-- C6: with the limit set to 0 a plus node makes no pass at all: the count is
drawn with `Intn(0)`, which panics, for every body, every budget and every state
of the random source. -/
theorem generate_plus_limit_zero (n : Nat) (sub : List Regexp) (rune : List Int)
    (mn mx : Int) (rnd : Rand) :
    generate 0 (n + 1) (.mk .OpPlus sub rune mn mx) rnd = .panic := by
  rw [generate_plus, Intn_of_nonpos rnd 0 (le_refl 0)]
  rfl

/-- C2: `Generate` on the tree of `a+` after `Limit(0)` panics, for every budget
and every state of the random source. -/
theorem Generate_aPlus_limit_zero (n : Nat) (rnd : Rand) :
    Generate (n + 1) (Limit ⟨aPlus, rnd, defaultLimit⟩ 0) = .panic := by
  have hlim : Limit ⟨aPlus, rnd, defaultLimit⟩ 0 = ⟨aPlus, rnd, 0⟩ := rfl
  rw [hlim]
  unfold Generate
  show (generate 0 (n + 1) aPlus rnd).bind _ = _
  unfold aPlus
  rw [generate_plus, Intn_of_nonpos rnd 0 (le_refl 0)]
  rfl

/-! ## Repeat with an exact count -/

theorem passes_literal (limit : Int) (n : Nat) (v : Int) (hv : validRune v = true) :
    ∀ (k : Nat) (l : List Int) (rnd : Rand),
      passes (pass (generate limit (n + 1))) k (l, [literal [v]], rnd) =
        .ok (l ++ List.replicate k v, [literal [v]], rnd) := by
  intro k
  induction k with
  | zero => intro l rnd; simp [passes]
  | succ k ih =>
    intro l rnd
    have hpass : pass (generate limit (n + 1)) [literal [v]] l rnd =
        .ok (l ++ [v], [literal [v]], rnd) := by
      simp [pass, literal, generate_literal, literalString, stringOfRune, hv]
    simp only [passes, hpass, Outcome.bind_ok]
    rw [ih]
    simp [List.replicate_succ]

/-- C8: a repeat node with `min == max` draws nothing for the count and makes
exactly `min` passes over its body: `generate` equals `min` passes started from
the incoming random source, for every limit (also one below `min`). For `a{3}`
the string is `aaa`, of length 3. -/
theorem repeat_exact :
    (∀ (limit : Int) (n : Nat) (sub : List Regexp) (rune : List Int) (m : Int) (rnd : Rand),
      0 ≤ m → m < n →
      generate limit (n + 1) (.mk .OpRepeat sub rune m m) rnd =
        (passes (pass (generate limit n)) m.toNat ([], sub, rnd)).bind fun st =>
          .ok (st.1, .mk .OpRepeat st.2.1 rune m (if limit < m then limit else m), st.2.2)) ∧
    (∀ (limit : Int) (n : Nat) (rnd : Rand),
      ∃ s re' rnd', generate limit (n + 5) aRepeat3 rnd = .ok (s, re', rnd') ∧
        s = [97, 97, 97] ∧ s.length = 3) := by
  have hgen : ∀ (limit : Int) (n : Nat) (sub : List Regexp) (rune : List Int) (m : Int)
      (rnd : Rand), 0 ≤ m → m < n →
      generate limit (n + 1) (.mk .OpRepeat sub rune m m) rnd =
        (passes (pass (generate limit n)) m.toNat ([], sub, rnd)).bind fun st =>
          .ok (st.1, .mk .OpRepeat st.2.1 rune m (if limit < m then limit else m), st.2.2) := by
    intro limit n sub rune m rnd hm hn
    have hne : ¬ m = -1 := by omega
    have hmx : (if m = -1 ∨ limit < m then limit else m) = (if limit < m then limit else m) := by
      simp [hne]
    have hnot : ¬ (if limit < m then limit else m) > m := by
      split <;> omega
    rw [generate_repeat, hmx, if_neg hnot]
    simp only [Outcome.bind_ok]
    rw [repeatCond_eq, forLoop_countCond _ _ m.toNat n 0 _ (by rw [max_eq_left hm]; simp) (by omega)]
  refine ⟨hgen, ?_⟩
  intro limit n rnd
  unfold aRepeat3
  rw [hgen limit (n + 4) _ _ 3 rnd (by omega) (by omega)]
  have h3 : (3 : Int).toNat = 3 := rfl
  rw [h3, passes_literal limit (n + 3) 97 (by decide) 3 [] rnd]
  exact ⟨_, _, _, rfl, rfl, rfl⟩

theorem repeat_exact_witness :
    generate 2 5 aRepeat3 (constRand 7) =
      (passes (pass (generate 2 4)) (3 : Int).toNat ([], [literal [97]], constRand 7)).bind fun st =>
        .ok (st.1, .mk .OpRepeat st.2.1 [] 3 (if (2 : Int) < 3 then 2 else 3), st.2.2) :=
  repeat_exact.1 2 4 [literal [97]] [] 3 (constRand 7) (by decide) (by decide)

/-! ## Alternation -/

theorem Rand.cons_zero (d : Nat) (rnd : Rand) : Rand.cons d rnd 0 = d := rfl

theorem Rand.tail_cons (d : Nat) (rnd : Rand) : (Rand.cons d rnd).tail = rnd := rfl

theorem Intn_cons (d : Nat) (rnd : Rand) (n : Int) (h : (d : Int) < n) :
    Intn (Rand.cons d rnd) n = .ok ((d : Int), rnd) := by
  rw [Intn_of_pos _ _ (by omega), Rand.cons_zero, Rand.tail_cons,
    Int.emod_eq_of_lt (by omega) h]

/-- C10: an alternation with at least one child draws an index `i` from
`[0, len(Sub))` and its output is the generation of the child at index `i` alone,
run on the source after that draw; every child is selected by some draw; for the
alternation of `a` and `b` both `a` and `b` are produced. -/
theorem alternate_spec :
    (∀ (limit : Int) (n : Nat) (sub : List Regexp) (rune : List Int) (mn mx : Int) (rnd : Rand),
      sub ≠ [] →
      ∃ (i : Nat) (c : Regexp), (i : Int) = (rnd 0 : Int) % (sub.length : Int) ∧
        i < sub.length ∧ sub.get? i = some c ∧
        generate limit (n + 1) (.mk .OpAlternate sub rune mn mx) rnd =
          (generate limit n c rnd.tail).bind fun p =>
            .ok (p.1, .mk .OpAlternate (sub.set i p.2.1) rune mn mx, p.2.2)) ∧
    (∀ (limit : Int) (n : Nat) (sub : List Regexp) (rune : List Int) (mn mx : Int)
      (j : Nat) (c : Regexp) (rest : Rand), sub.get? j = some c →
      ∃ rnd : Rand, generate limit (n + 1) (.mk .OpAlternate sub rune mn mx) rnd =
          (generate limit n c rest).bind fun p =>
            .ok (p.1, .mk .OpAlternate (sub.set j p.2.1) rune mn mx, p.2.2)) ∧
    (∃ rnd : Rand, output (generate 10 2 aOrB rnd) = some [97]) ∧
    (∃ rnd : Rand, output (generate 10 2 aOrB rnd) = some [98]) := by
  refine ⟨?_, ?_, ⟨constRand 0, by decide⟩, ⟨constRand 1, by decide⟩⟩
  · intro limit n sub rune mn mx rnd hne
    have hlen : 0 < (sub.length : Int) := by
      have : 0 < sub.length := List.length_pos.mpr hne
      exact_mod_cast this
    have hb := Intn_bounds rnd _ hlen
    have hidx : ((rnd 0 : Int) % (sub.length : Int)).toNat < sub.length := by omega
    refine ⟨_, sub.get ⟨_, hidx⟩, ?_, hidx, List.get?_eq_get hidx, ?_⟩
    · exact Int.toNat_of_nonneg hb.1
    · rw [generate_alternate, Intn_of_pos rnd _ hlen]
      simp only [Outcome.bind_ok]
      rw [List.get?_eq_get hidx]
  · intro limit n sub rune mn mx j c rest hget
    have hj : j < sub.length := by
      by_contra hcon
      rw [List.get?_eq_none.mpr (by omega)] at hget
      cases hget
    refine ⟨Rand.cons j rest, ?_⟩
    rw [generate_alternate, Intn_cons j rest _ (by exact_mod_cast hj)]
    simp only [Outcome.bind_ok, Int.toNat_ofNat]
    rw [hget]

theorem alternate_spec_witness :
    ∃ (i : Nat) (c : Regexp), (i : Int) = (constRand 3 0 : Int) % (([literal [97],
        literal [98]] : List Regexp).length : Int) ∧
      i < ([literal [97], literal [98]] : List Regexp).length ∧
      ([literal [97], literal [98]] : List Regexp).get? i = some c ∧
      generate 10 (1 + 1) (.mk .OpAlternate [literal [97], literal [98]] [] 0 0) (constRand 3) =
        (generate 10 1 c (constRand 3).tail).bind fun p =>
          .ok (p.1, .mk .OpAlternate (([literal [97], literal [98]] : List Regexp).set i p.2.1)
            [] 0 0, p.2.2) :=
  alternate_spec.1 10 1 [literal [97], literal [98]] [] 0 0 (constRand 3) (by simp)

/-! ## Bodies of one character -/

theorem stringOfRune_length (v : Int) : ∃ w, stringOfRune v = [w] := by
  unfold stringOfRune
  split
  · exact ⟨v, rfl⟩
  · exact ⟨0xFFFD, rfl⟩

theorem classOk_spec (cls : rr) (h : classOk cls = true) :
    cls ≠ [] ∧ ∀ x ∈ cls, x.min ≤ x.max := by
  unfold classOk at h
  simp only [Bool.and_eq_true, Bool.not_eq_true', List.isEmpty_eq_false, ne_eq, List.all_eq_true,
    decide_eq_true_eq] at h
  exact ⟨by simpa using h.1, h.2⟩

theorem generate_oneChar (limit : Int) (n : Nat) (c : Regexp) (hc : oneChar c = true)
    (rnd : Rand) : ∃ v rnd', generate limit (n + 1) c rnd = .ok ([v], c, rnd') := by
  obtain ⟨op, sub, rune, mn, mx⟩ := c
  cases op <;> simp only [oneChar, isClass, Bool.false_eq_true] at hc
  case OpLiteral =>
    obtain ⟨v, rfl⟩ : ∃ v, rune = [v] := by
      match rune, hc with
      | [v], _ => exact ⟨v, rfl⟩
    obtain ⟨w, hw⟩ := stringOfRune_length v
    exact ⟨w, rnd, by rw [generate_literal]; simp [literalString, hw]⟩
  case OpCharClass =>
    cases hp : pairs rune with
    | ok cls =>
      rw [hp] at hc
      obtain ⟨hne, hall⟩ := classOk_spec cls hc
      obtain ⟨v, rnd', hr, _⟩ := randRune_inRange_aux cls rnd hne hall
      obtain ⟨w, hw⟩ := stringOfRune_length v
      exact ⟨w, rnd', by rw [generate_charClass, hp]; simp [hr, hw]⟩
    | panic => rw [hp] at hc; cases hc
    | fuel => rw [hp] at hc; cases hc

theorem pass_oneChar (limit : Int) (n : Nat) (c : Regexp) (hc : oneChar c = true)
    (l : List Int) (rnd : Rand) :
    ∃ v rnd', pass (generate limit (n + 1)) [c] l rnd = .ok (l ++ [v], [c], rnd') := by
  obtain ⟨v, rnd', hg⟩ := generate_oneChar limit n c hc rnd
  exact ⟨v, rnd', by simp [pass, hg]⟩

theorem passes_oneChar (limit : Int) (n : Nat) (c : Regexp) (hc : oneChar c = true) :
    ∀ (k : Nat) (l : List Int) (rnd : Rand),
      ∃ l' rnd', passes (pass (generate limit (n + 1))) k (l, [c], rnd) = .ok (l', [c], rnd') ∧
        l'.length = l.length + k := by
  intro k
  induction k with
  | zero => intro l rnd; exact ⟨l, rnd, rfl, rfl⟩
  | succ k ih =>
    intro l rnd
    obtain ⟨v, rnd1, hp⟩ := pass_oneChar limit n c hc l rnd
    obtain ⟨l2, rnd2, hps, hlen⟩ := ih (l ++ [v]) rnd1
    refine ⟨l2, rnd2, ?_, ?_⟩
    · simp only [passes, hp, Outcome.bind_ok]
      exact hps
    · rw [hlen]; simp; omega

/-! ## Repeat over a range -/

theorem repeat_oneChar (limit : Int) (n : Nat) (c : Regexp) (rune : List Int) (mn mx : Int)
    (hc : oneChar c = true) (h0 : 0 ≤ mn) (h1 : mn < mx) (h2 : mx ≤ limit)
    (hmax : mx < maxInt) (hn : mx < n) (rnd : Rand) :
    ∃ s re' rnd', generate limit (n + 1) (.mk .OpRepeat [c] rune mn mx) rnd = .ok (s, re', rnd') ∧
      (s.length : Int) = max mn ((rnd 0 : Int) % (mx + 1)) := by
  obtain ⟨m, rfl⟩ : ∃ m, n = m + 1 := ⟨n - 1, by omega⟩
  have hmx : (if mx = -1 ∨ limit < mx then limit else mx) = mx := by
    rw [if_neg]; omega
  have hb := Intn_bounds rnd (mx + 1) (by omega)
  obtain ⟨l', rnd', hps, hlen⟩ := passes_oneChar limit m c hc
    (max mn ((rnd 0 : Int) % (mx + 1)) - 0).toNat [] rnd.tail
  refine ⟨l', .mk .OpRepeat [c] rune mn mx, rnd', ?_, ?_⟩
  · rw [generate_repeat, hmx, if_pos (by omega), wrapInt_of_le _ (by omega),
      Intn_of_pos rnd _ (by omega)]
    simp only [Outcome.bind_ok]
    rw [repeatCond_eq, forLoop_countCond _ _ _ (m + 1) 0 _ rfl
      (by have := max_le (le_of_lt h1) (Int.lt_add_one_iff.mp hb.2); omega), hps]
    rfl
  · rw [hlen]
    have := le_max_left mn ((rnd 0 : Int) % (mx + 1))
    simp only [List.length_nil, zero_add, sub_zero]
    omega

/-- C9: for a repeat node with `0 <= min < max <= limit` over a body of one
character, `max` below the largest `int` as in every parsed node (the parser
admits at most 1000), every output has a length between `min` and `max`, and
every length of that range, in particular `min` and `max`, is the length of the
output for some state of the random source. -/
theorem repeat_range (limit : Int) (n : Nat) (c : Regexp) (rune : List Int) (mn mx : Int)
    (hc : oneChar c = true) (h0 : 0 ≤ mn) (h1 : mn < mx) (h2 : mx ≤ limit)
    (hmax : mx < maxInt) (hn : mx < n) :
    (∀ rnd : Rand, ∃ s re' rnd',
      generate limit (n + 1) (.mk .OpRepeat [c] rune mn mx) rnd = .ok (s, re', rnd') ∧
        mn ≤ (s.length : Int) ∧ (s.length : Int) ≤ mx) ∧
    (∀ k : Int, mn ≤ k → k ≤ mx → ∃ (rnd : Rand) (s : List Int) (re' : Regexp) (rnd' : Rand),
      generate limit (n + 1) (.mk .OpRepeat [c] rune mn mx) rnd = .ok (s, re', rnd') ∧
        (s.length : Int) = k) := by
  refine ⟨?_, ?_⟩
  · intro rnd
    obtain ⟨s, re', rnd', hg, hlen⟩ := repeat_oneChar limit n c rune mn mx hc h0 h1 h2 hmax hn rnd
    have hb := Intn_bounds rnd (mx + 1) (by omega)
    refine ⟨s, re', rnd', hg, ?_, ?_⟩
    · rw [hlen]; exact le_max_left _ _
    · rw [hlen]; exact max_le (le_of_lt h1) (by omega)
  · intro k hk1 hk2
    obtain ⟨s, re', rnd', hg, hlen⟩ :=
      repeat_oneChar limit n c rune mn mx hc h0 h1 h2 hmax hn (Rand.cons k.toNat (constRand 0))
    refine ⟨_, s, re', rnd', hg, ?_⟩
    rw [hlen, Rand.cons_zero, Int.toNat_of_nonneg (by omega), Int.emod_eq_of_lt (by omega) (by omega)]
    exact max_eq_right hk1

theorem repeat_range_witness :
    (∀ rnd : Rand, ∃ s re' rnd',
      generate 10 (7 + 1) (.mk .OpRepeat [literal [97]] [] 3 6) rnd = .ok (s, re', rnd') ∧
        3 ≤ (s.length : Int) ∧ (s.length : Int) ≤ 6) ∧
    (∀ k : Int, 3 ≤ k → k ≤ 6 → ∃ (rnd : Rand) (s : List Int) (re' : Regexp) (rnd' : Rand),
      generate 10 (7 + 1) (.mk .OpRepeat [literal [97]] [] 3 6) rnd = .ok (s, re', rnd') ∧
        (s.length : Int) = k) :=
  repeat_range 10 7 (literal [97]) [] 3 6 (by decide) (by decide) (by decide) (by decide)
    (by decide) (by decide)

/-! ## Star under a limit -/

theorem star_oneChar (limit : Int) (hlim : 0 ≤ limit) (hmax : limit < maxInt) (n : Nat)
    (hn : limit + 1 < n) (c : Regexp) (hc : oneChar c = true) (rune : List Int) (mn mx : Int)
    (rnd : Rand) :
    ∃ s rnd', generate limit n (.mk .OpStar [c] rune mn mx) rnd =
        .ok (s, .mk .OpStar [c] rune mn mx, rnd') ∧ (s.length : Int) ≤ limit := by
  obtain ⟨m, rfl⟩ : ∃ m, n = m + 2 := ⟨n - 2, by omega⟩
  have hloop := forLoop_inv (drawCond (limit + 1)) (pass (generate limit (m + 1)))
    (fun i l sub => sub = [c] ∧ (l.length : Int) = i) 0 limit
    (by
      intro i rnd
      have hb := Intn_bounds rnd (limit + 1) (by omega)
      refine ⟨decide (i < (rnd 0 : Int) % (limit + 1)), rnd.tail, ?_, ?_, ?_⟩
      · unfold drawCond; rw [Intn_of_pos rnd _ (by omega)]; rfl
      · intro hi; simp; omega
      · intro hi; simp; omega)
    (by
      rintro i l sub rnd ⟨rfl, hl⟩ _
      obtain ⟨v, rnd', hp⟩ := pass_oneChar limit m c hc l rnd
      exact ⟨_, _, _, hp, rfl, by simp; omega⟩)
    (m + 1) 0 [] [c] rnd ⟨rfl, rfl⟩ (by omega)
  obtain ⟨j, l', sub', rnd', hfl, ⟨rfl, hl⟩, _, hj⟩ := hloop
  refine ⟨l', rnd', ?_, ?_⟩
  · rw [generate_star, wrapInt_of_le _ (by omega), hfl]; rfl
  · rw [hl]; exact le_trans hj (max_le hlim (le_refl _))

theorem Generates_star_oneChar (limit : Int) (hlim : 0 ≤ limit) (hmax : limit < maxInt)
    (n : Nat) (hn : limit + 1 < n) (c : Regexp) (hc : oneChar c = true) (rune : List Int)
    (mn mx : Int) :
    ∀ (k : Nat) (rnd : Rand), ∃ ss g',
      Generates n k ⟨.mk .OpStar [c] rune mn mx, rnd, limit⟩ = .ok (ss, g') ∧
        ss.length = k ∧ ∀ s ∈ ss, (s.length : Int) ≤ limit := by
  intro k
  induction k with
  | zero => intro rnd; exact ⟨[], _, rfl, rfl, by simp⟩
  | succ k ih =>
    intro rnd
    obtain ⟨s, rnd', hg, hlen⟩ := star_oneChar limit hlim hmax n hn c hc rune mn mx rnd
    obtain ⟨ss, g', hgs, hk, hall⟩ := ih rnd'
    refine ⟨s :: ss, g', ?_, by simp [hk], ?_⟩
    · simp only [Generates, Generate, hg, Outcome.bind_ok, hgs]
    · intro t ht
      rcases List.mem_cons.mp ht with rfl | hmem
      · exact hlen
      · exact hall t hmem

/-- Partial-correctness loop rule with the counter: an invariant that a pass
re-establishes whenever the condition let it run holds when the loop returns. -/
theorem forLoop_post (cond : Int → Rand → Outcome (Bool × Rand))
    (body : List Regexp → List Int → Rand → Outcome LoopState)
    (Inv : Int → List Int → List Regexp → Prop)
    (hb : ∀ i l sub rnd c st', Inv i l sub → cond i rnd = .ok c → c.1 = true →
      body sub l c.2 = .ok st' → Inv (i + 1) st'.1 st'.2.1) :
    ∀ (n : Nat) (i : Int) (st st' : LoopState), Inv i st.1 st.2.1 →
      forLoop cond body n i st = .ok st' → ∃ j, Inv j st'.1 st'.2.1 := by
  intro n
  induction n with
  | zero => intro i st st' _ h; cases h
  | succ n ih =>
    intro i st st' hinv h
    rw [forLoop_succ] at h
    obtain ⟨c, hcond, h⟩ := Outcome.bind_eq_ok _ _ _ h
    by_cases hc : c.1 = true
    · rw [if_pos hc] at h
      obtain ⟨st1, hst1, h⟩ := Outcome.bind_eq_ok _ _ _ h
      exact ih (i + 1) st1 st' (hb i _ _ _ c st1 hinv hcond hc hst1) h
    · rw [if_neg hc] at h
      simp only [Outcome.ok.injEq] at h
      subst h
      exact ⟨i, hinv⟩

theorem star_oneChar_bound (limit : Int) (hlim : 0 ≤ limit) (n : Nat) (c : Regexp)
    (hc : oneChar c = true) (rune : List Int) (mn mx : Int) (rnd : Rand) (s : List Int)
    (re' : Regexp) (rnd' : Rand)
    (h : generate limit n (.mk .OpStar [c] rune mn mx) rnd = .ok (s, re', rnd')) :
    re' = .mk .OpStar [c] rune mn mx ∧ (s.length : Int) ≤ limit := by
  cases n with
  | zero => rw [generate_zero] at h; cases h
  | succ m =>
    rw [generate_star] at h
    obtain ⟨st, hst, h⟩ := Outcome.bind_eq_ok _ _ _ h
    simp only [Outcome.ok.injEq, Prod.mk.injEq] at h
    obtain ⟨rfl, rfl, rfl⟩ := h
    obtain ⟨j, hsub, hlen, hj⟩ := forLoop_post (drawCond (wrapInt (limit + 1)))
      (pass (generate limit m))
      (fun i l sub => sub = [c] ∧ (l.length : Int) = i ∧ i ≤ limit)
      (by
        rintro i l sub rnd0 cnd st' ⟨rfl, hl, _⟩ hcond htrue hbody
        unfold drawCond at hcond
        obtain ⟨p, hp, hcond⟩ := Outcome.bind_eq_ok _ _ _ hcond
        have hb := Intn_eq_ok _ _ p hp
        have hw := wrapInt_le (limit + 1)
        simp only [Outcome.ok.injEq] at hcond
        subst hcond
        simp only [decide_eq_true_eq] at htrue
        cases m with
        | zero => simp [pass, generate_zero] at hbody
        | succ m' =>
          obtain ⟨v, rnd1, hv⟩ := pass_oneChar limit m' c hc l p.2
          rw [hv] at hbody
          simp only [Outcome.ok.injEq] at hbody
          subst hbody
          exact ⟨rfl, by simp; omega, by omega⟩)
      m 0 ([], [c], rnd) st ⟨rfl, rfl, hlim⟩ hst
    exact ⟨by rw [hsub], by omega⟩

theorem Generates_star_bound (limit : Int) (hlim : 0 ≤ limit) (n : Nat) (c : Regexp)
    (hc : oneChar c = true) (rune : List Int) (mn mx : Int) :
    ∀ (k : Nat) (rnd : Rand) (ss : List (List Int)) (g' : Generator),
      Generates n k ⟨.mk .OpStar [c] rune mn mx, rnd, limit⟩ = .ok (ss, g') →
        ∀ s ∈ ss, (s.length : Int) ≤ limit := by
  intro k
  induction k with
  | zero =>
    intro rnd ss g' h
    simp only [Generates, Outcome.ok.injEq, Prod.mk.injEq] at h
    obtain ⟨rfl, _⟩ := h
    simp
  | succ k ih =>
    intro rnd ss g' h
    rw [Generates] at h
    obtain ⟨p, hp, h⟩ := Outcome.bind_eq_ok _ _ _ h
    obtain ⟨q, hq, h⟩ := Outcome.bind_eq_ok _ _ _ h
    simp only [Outcome.ok.injEq, Prod.mk.injEq] at h
    obtain ⟨rfl, _⟩ := h
    unfold Generate at hp
    obtain ⟨u, hu, hp⟩ := Outcome.bind_eq_ok _ _ _ hp
    simp only [Outcome.ok.injEq] at hp
    subst hp
    obtain ⟨hre, hlen⟩ := star_oneChar_bound limit hlim n c hc rune mn mx rnd u.1 u.2.1 u.2.2 hu
    intro t ht
    rcases List.mem_cons.mp ht with rfl | hmem
    · exact hlen
    · have hq' : Generates n k ⟨.mk .OpStar [c] rune mn mx, u.2.2, limit⟩ = .ok q := by
        rw [← hre]; exact hq
      exact ih u.2.2 q.1 q.2 hq' t hmem

/-- C4: for a star node over a body of one character, after `Limit(L)` with
`L >= 0` every string returned by `Generate`, on the first and on every later
call, has length at most `L` (so it is empty for `L = 0`), whatever the budget
and the state of the random source; for `L` below the largest `int` the calls do
return (at the largest `int` the sum `g.limit+1` overflows and no string is
returned). After `Limit(L)` with `L < 0` on a generator fresh from `New` every
call returns a string of length at most 10. Lengths count code points, which for
`[a-zA-Z]` is the byte length. -/
theorem limit_bounds_length (c : Regexp) (rune : List Int) (mn mx : Int)
    (hc : oneChar c = true) (L : Int) (n k : Nat) :
    (∀ g : Generator, g.re = .mk .OpStar [c] rune mn mx → 0 ≤ L →
      ∀ ss g', Generates n k (Limit g L) = .ok (ss, g') → ∀ s ∈ ss, (s.length : Int) ≤ L) ∧
    (∀ g : Generator, g.re = .mk .OpStar [c] rune mn mx → 0 ≤ L → L < maxInt → L + 1 < n →
      ∃ ss g', Generates n k (Limit g L) = .ok (ss, g') ∧ ss.length = k ∧
        ∀ s ∈ ss, (s.length : Int) ≤ L) ∧
    (∀ (Parse : String → Except String Regexp) (clock : Rand) (pattern : String) (g : Generator),
      New Parse clock pattern = .ok g → g.re = .mk .OpStar [c] rune mn mx → L < 0 → 11 < n →
      ∃ ss g', Generates n k (Limit g L) = .ok (ss, g') ∧ ss.length = k ∧
        ∀ s ∈ ss, (s.length : Int) ≤ 10) := by
  refine ⟨?_, ?_, ?_⟩
  · intro g hg hL ss g' h
    have hstate : Limit g L = ⟨.mk .OpStar [c] rune mn mx, g.rand, L⟩ := by
      unfold Limit; rw [if_pos hL, ← hg]
    rw [hstate] at h
    exact Generates_star_bound L hL n c hc rune mn mx k g.rand ss g' h
  · intro g hg hL hmax hn
    have hstate : Limit g L = ⟨.mk .OpStar [c] rune mn mx, g.rand, L⟩ := by
      unfold Limit; rw [if_pos hL, ← hg]
    rw [hstate]
    exact Generates_star_oneChar L hL hmax n hn c hc rune mn mx k g.rand
  · intro Parse clock pattern g hnew hg hL hn
    have hlimit : g.limit = 10 := by
      unfold New at hnew
      cases hp : Parse pattern with
      | error e => rw [hp] at hnew; cases hnew
      | ok re => rw [hp] at hnew; cases hnew; rfl
    have hstate : Limit g L = ⟨.mk .OpStar [c] rune mn mx, g.rand, 10⟩ := by
      unfold Limit; rw [if_neg (by omega), ← hg, ← hlimit]
    rw [hstate]
    exact Generates_star_oneChar 10 (by decide) (by decide) n (by omega) c hc rune mn mx k g.rand

theorem limit_bounds_length_witness :
    (∃ ss g', Generates 12 3 (Limit ⟨alphaStar, constRand 5, defaultLimit⟩ 1) = .ok (ss, g') ∧
        ss.length = 3 ∧ ∀ s ∈ ss, (s.length : Int) ≤ 1) ∧
      (∃ ss g', Generates 12 3 (Limit ⟨alphaStar, constRand 5, defaultLimit⟩ (-1)) = .ok (ss, g') ∧
        ss.length = 3 ∧ ∀ s ∈ ss, (s.length : Int) ≤ 10) :=
  ⟨(limit_bounds_length alphaClass [] 0 0 (by decide) 1 12 3).2.1
      ⟨alphaStar, constRand 5, defaultLimit⟩ rfl (by decide) (by decide) (by decide),
    (limit_bounds_length alphaClass [] 0 0 (by decide) (-1) 12 3).2.2
      parseLimitPattern (constRand 5) "[a-zA-Z]*" ⟨alphaStar, constRand 5, defaultLimit⟩
      rfl rfl (by decide) (by decide)⟩

/-! ## Trees after earlier calls -/

mutual
theorem Lowered_refl : ∀ re : Regexp, Lowered re re
  | .mk _ sub _ _ _ => .mk (LoweredList_refl sub) (Or.inl rfl)
theorem LoweredList_refl : ∀ sub : List Regexp, LoweredList sub sub
  | [] => .nil
  | c :: rest => .cons (Lowered_refl c) (LoweredList_refl rest)
end

theorem LoweredList_singleton (c0 : Regexp) (sub : List Regexp) (h : LoweredList [c0] sub) :
    ∃ c, sub = [c] ∧ Lowered c0 c := by
  cases h with
  | cons hc hrest =>
    cases hrest
    exact ⟨_, rfl, hc⟩

theorem LoweredList_length : ∀ (sub0 sub : List Regexp), LoweredList sub0 sub →
    sub.length = sub0.length
  | [], _, h => by cases h; rfl
  | _ :: rest0, _, h => by
    cases h with
    | cons hc hrest => simp [LoweredList_length rest0 _ hrest]

theorem LoweredList_get : ∀ (sub0 sub : List Regexp) (i : Nat) (c : Regexp),
    LoweredList sub0 sub → sub.get? i = some c → ∃ c0, sub0.get? i = some c0 ∧ Lowered c0 c
  | [], _, _, _, h, hget => by cases h; simp at hget
  | c0 :: rest0, _, i, c, h, hget => by
    cases h with
    | cons hc hrest =>
      cases i with
      | zero =>
        simp only [List.get?_cons_zero, Option.some.injEq] at hget
        subst hget
        exact ⟨c0, rfl, hc⟩
      | succ i =>
        simp only [List.get?_cons_succ] at hget
        obtain ⟨d0, hd0, hd⟩ := LoweredList_get rest0 _ i c hrest hget
        exact ⟨d0, by simpa using hd0, hd⟩

theorem LoweredList_set : ∀ (sub0 sub : List Regexp) (i : Nat) (c0 c : Regexp),
    LoweredList sub0 sub → sub0.get? i = some c0 → Lowered c0 c → LoweredList sub0 (sub.set i c)
  | [], _, _, _, _, h, hget, _ => by cases h; simp at hget
  | d0 :: rest0, _, i, c0, c, h, hget, hc => by
    cases h with
    | cons hd hrest =>
      cases i with
      | zero =>
        simp only [List.get?_cons_zero, Option.some.injEq] at hget
        subst hget
        exact .cons hc hrest
      | succ i =>
        simp only [List.get?_cons_succ] at hget
        exact .cons hd (LoweredList_set rest0 _ i c0 c hrest hget hc)

/-! ## Conditions on subexpressions -/

theorem allNodes_mk (p : Regexp → Bool) (op : Op) (sub : List Regexp) (rune : List Int)
    (mn mx : Int) :
    allNodes p (.mk op sub rune mn mx) = (p (.mk op sub rune mn mx) && allNodesList p sub) := by
  rw [allNodes]

theorem allNodesList_mem (p : Regexp → Bool) : ∀ (sub : List Regexp),
    allNodesList p sub = true → ∀ c ∈ sub, allNodes p c = true
  | [], _, c, hc => by cases hc
  | d :: rest, h, c, hc => by
    rw [allNodesList] at h
    simp only [Bool.and_eq_true] at h
    rcases List.mem_cons.mp hc with rfl | hmem
    · exact h.1
    · exact allNodesList_mem p rest h.2 c hmem

theorem depthList_mem : ∀ (sub : List Regexp) (c : Regexp), c ∈ sub → depth c ≤ depthList sub
  | [], c, hc => by cases hc
  | d :: rest, c, hc => by
    rw [depthList]
    rcases List.mem_cons.mp hc with rfl | hmem
    · exact Nat.le_max_left _ _
    · exact le_trans (depthList_mem rest c hmem) (Nat.le_max_right _ _)

theorem maxMinList_mem : ∀ (sub : List Regexp) (c : Regexp), c ∈ sub → maxMin c ≤ maxMinList sub
  | [], c, hc => by cases hc
  | d :: rest, c, hc => by
    rw [maxMinList]
    rcases List.mem_cons.mp hc with rfl | hmem
    · exact Nat.le_max_left _ _
    · exact le_trans (maxMinList_mem rest c hmem) (Nat.le_max_right _ _)

theorem depth_mk (op : Op) (sub : List Regexp) (rune : List Int) (mn mx : Int) :
    depth (.mk op sub rune mn mx) = depthList sub + 1 := by
  rw [depth]

theorem maxMin_mk (op : Op) (sub : List Regexp) (rune : List Int) (mn mx : Int) :
    maxMin (.mk op sub rune mn mx) = Nat.max mn.toNat (maxMinList sub) := by
  rw [maxMin]

/-! ## Strings of encodable nodes -/

theorem literalString_valid : ∀ rune : List Int, rune.all validRune = true →
    literalString rune = rune
  | [], _ => rfl
  | v :: rest, h => by
    simp only [List.all_cons, Bool.and_eq_true] at h
    simp [literalString, stringOfRune, h.1, literalString_valid rest h.2]

theorem scalarRange_valid (x : r) (v : Int) (hx : scalarRange x = true)
    (hv : x.inRange v = true) : validRune v = true := by
  unfold scalarRange at hx
  unfold r.inRange at hv
  unfold validRune
  simp only [Bool.and_eq_true, Bool.or_eq_true, decide_eq_true_eq, ge_iff_le] at hx hv
  simp only [Bool.and_eq_true, decide_eq_true_eq, Bool.not_eq_true', Bool.and_eq_false_imp,
    decide_eq_false_iff_not, not_le]
  omega

theorem rr_inRange_mem : ∀ (cls : rr) (v : Int), rr.inRange cls v = true →
    ∃ x ∈ cls, x.inRange v = true
  | [], _, h => by simp [rr.inRange] at h
  | x :: rest, v, h => by
    rw [rr.inRange] at h
    by_cases hx : x.inRange v = true
    · exact ⟨x, List.mem_cons_self _ _, hx⟩
    · rw [if_neg hx] at h
      obtain ⟨y, hy, hyv⟩ := rr_inRange_mem rest v h
      exact ⟨y, List.mem_cons_of_mem _ hy, hyv⟩

theorem classEncodable_string (cls : rr) (v : Int) (henc : classEncodable cls = true)
    (hv : rr.inRange cls v = true) :
    ∃ w, stringOfRune v = [w] ∧ rr.inRange cls w = true := by
  unfold stringOfRune
  by_cases hvalid : validRune v = true
  · exact ⟨v, by rw [if_pos hvalid], hv⟩
  · refine ⟨0xFFFD, by rw [if_neg hvalid], ?_⟩
    unfold classEncodable at henc
    rcases Bool.or_eq_true _ _ ▸ henc with hall | hfffd
    · obtain ⟨x, hx, hxv⟩ := rr_inRange_mem cls v hv
      exact absurd (scalarRange_valid x v (List.all_eq_true.mp hall x hx) hxv) hvalid
    · exact hfffd

/-! ## Generated strings match -/

theorem pass_sound (gen : Regexp → Rand → Outcome (List Int × Regexp × Rand)) :
    ∀ (sub0 : List Regexp),
      (∀ c0 ∈ sub0, ∀ (c : Regexp) (rnd : Rand), Lowered c0 c →
        ∃ s c' rnd', gen c rnd = .ok (s, c', rnd') ∧ Matches c0 s ∧ Lowered c0 c') →
      ∀ (sub : List Regexp) (l : List Int) (rnd : Rand), LoweredList sub0 sub →
        ∃ t sub' rnd', pass gen sub l rnd = .ok (l ++ t, sub', rnd') ∧
          (∀ rune mn mx, Matches (.mk .OpConcat sub0 rune mn mx) t) ∧ LoweredList sub0 sub'
  | [], _, _, l, rnd, h => by
    cases h
    exact ⟨[], [], rnd, by simp [pass], fun _ _ _ => .concatNil, .nil⟩
  | c0 :: rest0, hgen, _, l, rnd, h => by
    cases h with
    | cons hc hrest =>
      obtain ⟨s, c', rnd1, hg, hm, hl⟩ := hgen c0 (List.mem_cons_self _ _) _ rnd hc
      obtain ⟨t, rest', rnd2, hp, hmt, hlt⟩ := pass_sound gen rest0
        (fun d0 hd0 => hgen d0 (List.mem_cons_of_mem _ hd0)) _ (l ++ s) rnd1 hrest
      refine ⟨s ++ t, c' :: rest', rnd2, ?_, fun rune mn mx => .concatCons hm (hmt rune mn mx),
        .cons hl hlt⟩
      simp [pass, hg, hp]

theorem pass_sound_one (gen : Regexp → Rand → Outcome (List Int × Regexp × Rand))
    (c0 : Regexp)
    (hgen : ∀ (c : Regexp) (rnd : Rand), Lowered c0 c →
      ∃ s c' rnd', gen c rnd = .ok (s, c', rnd') ∧ Matches c0 s ∧ Lowered c0 c')
    (sub : List Regexp) (l : List Int) (rnd : Rand) (h : LoweredList [c0] sub) :
    ∃ t sub' rnd', pass gen sub l rnd = .ok (l ++ t, sub', rnd') ∧ Matches c0 t ∧
      LoweredList [c0] sub' := by
  obtain ⟨c, rfl, hc⟩ := LoweredList_singleton c0 sub h
  obtain ⟨s, c', rnd1, hg, hm, hl⟩ := hgen c rnd hc
  exact ⟨s, [c'], rnd1, by simp [pass, hg], hm, .cons hl .nil⟩

theorem loop_sound (gen : Regexp → Rand → Outcome (List Int × Regexp × Rand))
    (c0 : Regexp)
    (hgen : ∀ (c : Regexp) (rnd : Rand), Lowered c0 c →
      ∃ s c' rnd', gen c rnd = .ok (s, c', rnd') ∧ Matches c0 s ∧ Lowered c0 c')
    (cond : Int → Rand → Outcome (Bool × Rand)) (lo hi : Int)
    (hc : ∀ i rnd, ∃ b rnd', cond i rnd = .ok (b, rnd') ∧ (i < lo → b = true) ∧
      (hi ≤ i → b = false))
    (n : Nat) (hn : hi.toNat < n) (sub : List Regexp) (hsub : LoweredList [c0] sub)
    (rnd : Rand) :
    ∃ (ts : List (List Int)) (sub' : List Regexp) (rnd' : Rand),
      forLoop cond (pass gen) n 0 ([], sub, rnd) = .ok (ts.flatten, sub', rnd') ∧
        max 0 lo ≤ (ts.length : Int) ∧ (ts.length : Int) ≤ max 0 hi ∧
        (∀ t ∈ ts, Matches c0 t) ∧ LoweredList [c0] sub' := by
  have hloop := forLoop_inv cond (pass gen)
    (fun i l sub => LoweredList [c0] sub ∧
      ∃ ts : List (List Int), l = ts.flatten ∧ (ts.length : Int) = i ∧ ∀ t ∈ ts, Matches c0 t)
    lo hi hc
    (by
      rintro i l sub rnd ⟨hl, ts, rfl, hlen, hall⟩ _
      obtain ⟨t, sub', rnd', hp, hm, hl'⟩ := pass_sound_one gen c0 hgen sub ts.flatten rnd hl
      refine ⟨_, sub', rnd', hp, hl', ts ++ [t], by simp, by simp [hlen], ?_⟩
      intro u hu
      rcases List.mem_append.mp hu with h1 | h1
      · exact hall u h1
      · rw [List.mem_singleton.mp h1]; exact hm)
    n 0 [] sub rnd ⟨hsub, [], rfl, rfl, by simp⟩ (by simpa using hn)
  obtain ⟨j, l', sub', rnd', hfl, ⟨hl', ts, rfl, hlen, hall⟩, hj1, hj2⟩ := hloop
  exact ⟨ts, sub', rnd', hfl, by rw [hlen]; exact hj1, by rw [hlen]; exact hj2, hall, hl'⟩

theorem drawCond_spec (bound : Int) (hb : 0 < bound) (i : Int) (rnd : Rand) :
    ∃ b rnd', drawCond bound i rnd = .ok (b, rnd') ∧ (i < 0 → b = true) ∧
      (bound - 1 ≤ i → b = false) := by
  have hd := Intn_bounds rnd bound hb
  refine ⟨decide (i < (rnd 0 : Int) % bound), rnd.tail, ?_, ?_, ?_⟩
  · unfold drawCond; rw [Intn_of_pos rnd _ hb]; rfl
  · intro hi; simp; omega
  · intro hi; simp; omega

theorem countCond_spec (count : Int) (i : Int) (rnd : Rand) :
    ∃ b rnd', countCond count i rnd = .ok (b, rnd') ∧ (i < count → b = true) ∧
      (count ≤ i → b = false) := by
  refine ⟨decide (i < count), rnd, rfl, ?_, ?_⟩
  · intro hi; simp [hi]
  · intro hi; simp; omega

theorem generate_sound (limit : Int) (hlim : 1 ≤ limit) (hlim2 : limit < maxInt) (M : Nat)
    (hM : limit ≤ (M : Int)) :
    ∀ (n : Nat) (re0 re : Regexp) (rnd : Rand), wellFormed re0 = true → encodable re0 = true →
      maxMin re0 ≤ M → depth re0 + M + 1 ≤ n → Lowered re0 re →
      ∃ s re' rnd', generate limit n re rnd = .ok (s, re', rnd') ∧ Matches re0 s ∧
        Lowered re0 re' := by
  intro n
  induction n with
  | zero => intro re0 re rnd _ _ _ hfuel _; omega
  | succ n ih =>
    intro re0 re rnd hwf henc hmin hfuel hlow
    cases hlow with
    | @mk op sub0 sub rune mn mx0 mx hsub hmax =>
    unfold wellFormed at hwf
    unfold encodable at henc
    rw [allNodes_mk, Bool.and_eq_true] at hwf henc
    rw [depth_mk] at hfuel
    rw [maxMin_mk] at hmin
    have hmn : mn.toNat ≤ M := le_trans (Nat.le_max_left _ _) hmin
    have hchild : ∀ c0 ∈ sub0, ∀ (c : Regexp) (rnd : Rand), Lowered c0 c →
        ∃ s c' rnd', generate limit n c rnd = .ok (s, c', rnd') ∧ Matches c0 s ∧
          Lowered c0 c' := by
      intro c0 hc0 c rnd hc
      have h1 := depthList_mem sub0 c0 hc0
      have h2 := le_trans (maxMinList_mem sub0 c0 hc0) (le_trans (Nat.le_max_right _ _) hmin)
      exact ih c0 c rnd (allNodesList_mem _ sub0 hwf.2 c0 hc0)
        (allNodesList_mem _ sub0 henc.2 c0 hc0) h2 (by omega) hc
    have hone : sub0.length = 1 → ∃ c0, sub0 = [c0] := by
      intro hlen
      match sub0, hlen with
      | [c0], _ => exact ⟨c0, rfl⟩
    have hbudget : (M : Int) < n := by omega
    cases op <;> simp only [nodeOk, Bool.false_eq_true, false_and] at hwf
    case OpLiteral =>
      have hrune : rune.all validRune = true := by simpa [nodeEncodable] using henc.1
      exact ⟨rune, _, rnd, by rw [generate_literal, literalString_valid rune hrune],
        .literal, .mk hsub hmax⟩
    case OpCharClass =>
      have hcls := hwf.1
      have henc1 := henc.1
      simp only [isClass] at hcls
      simp only [nodeEncodable] at henc1
      cases hp : pairs rune with
      | ok cls =>
        rw [hp] at hcls henc1
        obtain ⟨hne, hall⟩ := classOk_spec cls hcls
        obtain ⟨v, rnd', hr, hin⟩ := randRune_inRange_aux cls rnd hne hall
        obtain ⟨w, hw, hwin⟩ := classEncodable_string cls v henc1 hin
        exact ⟨[w], _, rnd', by rw [generate_charClass, hp]; simp [hr, hw],
          .charClass hp hwin, .mk hsub hmax⟩
      | panic => rw [hp] at hcls; cases hcls
      | fuel => rw [hp] at hcls; cases hcls
    case OpCapture =>
      obtain ⟨c0, rfl⟩ := hone (by simpa using hwf.1)
      obtain ⟨c, rfl, hc⟩ := LoweredList_singleton c0 sub hsub
      obtain ⟨s, c', rnd', hg, hm, hl⟩ := hchild c0 (List.mem_singleton_self _) c rnd hc
      exact ⟨s, _, rnd', by rw [generate_capture, hg]; rfl, .capture hm,
        .mk (.cons hl .nil) hmax⟩
    case OpStar =>
      obtain ⟨c0, rfl⟩ := hone (by simpa using hwf.1)
      obtain ⟨ts, sub', rnd', hfl, _, _, hall, hl⟩ := loop_sound (generate limit n) c0
        (hchild c0 (List.mem_singleton_self _)) (drawCond (limit + 1)) 0 (limit + 1 - 1)
        (drawCond_spec (limit + 1) (by omega)) n (by omega) sub hsub rnd
      exact ⟨ts.flatten, _, rnd', by rw [generate_star, wrapInt_of_le _ (by omega), hfl]; rfl,
        .star ts hall, .mk hl hmax⟩
    case OpPlus =>
      obtain ⟨c0, rfl⟩ := hone (by simpa using hwf.1)
      have hd := Intn_bounds rnd limit (by omega)
      obtain ⟨ts, sub', rnd', hfl, hlo, _, hall, hl⟩ := loop_sound (generate limit n) c0
        (hchild c0 (List.mem_singleton_self _)) (countCond ((rnd 0 : Int) % limit + 1))
        ((rnd 0 : Int) % limit + 1) ((rnd 0 : Int) % limit + 1) (countCond_spec _) n (by omega)
        sub hsub rnd.tail
      refine ⟨ts.flatten, _, rnd', ?_, .plus ts ?_ hall, .mk hl hmax⟩
      · rw [generate_plus, Intn_of_pos rnd _ (by omega)]
        simp only [Outcome.bind_ok]
        rw [hfl]; rfl
      · have := le_trans (le_max_right _ _) hlo
        omega
    case OpQuest =>
      obtain ⟨c0, rfl⟩ := hone (by simpa using hwf.1)
      obtain ⟨ts, sub', rnd', hfl, _, hhi, hall, hl⟩ := loop_sound (generate limit n) c0
        (hchild c0 (List.mem_singleton_self _)) (drawCond 2) 0 (2 - 1)
        (drawCond_spec 2 (by omega)) n (by omega) sub hsub rnd
      refine ⟨ts.flatten, _, rnd', by rw [generate_quest, hfl]; rfl, .quest ts ?_ hall,
        .mk hl hmax⟩
      have : max (0 : Int) (2 - 1) = 1 := by decide
      omega
    case OpRepeat =>
      simp only [Bool.and_eq_true, Bool.or_eq_true, decide_eq_true_eq, beq_iff_eq] at hwf
      obtain ⟨⟨⟨hlen, hmn0⟩, hmx0⟩, _⟩ := hwf
      obtain ⟨c0, rfl⟩ := hone hlen
      obtain ⟨mx', hmx', hle, hlow'⟩ : ∃ mx', (if mx = -1 ∨ limit < mx then limit else mx) = mx' ∧
          mx' ≤ limit ∧ MaxLowered mx0 mx' := by
        refine ⟨_, rfl, ?_, ?_⟩
        · split <;> omega
        · unfold MaxLowered at hmax ⊢
          split <;> omega
      have hup : mx0 = -1 ∨ mx' ≤ mx0 := by
        unfold MaxLowered at hlow'
        omega
      obtain ⟨d, rnd1, hdraw, hd0, hd1⟩ : ∃ d rnd1,
          (if mx' > mn then Intn rnd (mx' + 1) else .ok (0, rnd)) = .ok (d, rnd1) ∧
            0 ≤ d ∧ (d ≤ mn ∨ d ≤ mx') := by
        by_cases hgt : mx' > mn
        · have hb := Intn_bounds rnd (mx' + 1) (by omega)
          exact ⟨_, _, by rw [if_pos hgt, Intn_of_pos rnd _ (by omega)], hb.1, Or.inr (by omega)⟩
        · exact ⟨0, rnd, by rw [if_neg hgt], le_refl _, Or.inl hmn0⟩
      have hcount : 0 ≤ max mn d ∧ mn ≤ max mn d ∧ max mn d ≤ (M : Int) ∧
          (mx0 = -1 ∨ max mn d ≤ mx0) := by
        rcases le_total mn d with h | h
        · rw [max_eq_right h]; omega
        · rw [max_eq_left h]; omega
      obtain ⟨ts, sub', rnd', hfl, hlo, hhi, hall, hl⟩ := loop_sound (generate limit n) c0
        (hchild c0 (List.mem_singleton_self _)) (countCond (max mn d))
        (max mn d) (max mn d) (countCond_spec _) n (by omega) sub hsub rnd1
      have hlen' : (ts.length : Int) = max mn d := by
        rw [max_eq_right hcount.1] at hlo hhi
        omega
      refine ⟨ts.flatten, _, rnd', ?_, .rep ts (by omega) (by omega) hall, .mk hl hlow'⟩
      rw [generate_repeat, hmx', wrapInt_of_le _ (by omega), hdraw]
      simp only [Outcome.bind_ok]
      rw [repeatCond_eq, hfl]; rfl
    case OpConcat =>
      obtain ⟨t, sub', rnd', hp, hm, hl⟩ := pass_sound (generate limit n) sub0 hchild sub [] rnd hsub
      exact ⟨t, _, rnd', by rw [generate_concat, hp]; rfl, hm rune mn mx0, .mk hl hmax⟩
    case OpAlternate =>
      have hne : sub ≠ [] := by
        intro hnil
        have h1 := LoweredList_length sub0 sub hsub
        rw [hnil] at h1
        have h2 : sub0 = [] := List.length_eq_zero.mp h1.symm
        rw [h2] at hwf
        simp at hwf
      have hlen : 0 < (sub.length : Int) := by
        have : 0 < sub.length := List.length_pos.mpr hne
        exact_mod_cast this
      have hb := Intn_bounds rnd _ hlen
      have hidx : ((rnd 0 : Int) % (sub.length : Int)).toNat < sub.length := by omega
      have hget : sub.get? ((rnd 0 : Int) % (sub.length : Int)).toNat =
          some (sub.get ⟨_, hidx⟩) := List.get?_eq_get hidx
      obtain ⟨c0, hget0, hc⟩ := LoweredList_get sub0 sub _ _ hsub hget
      obtain ⟨s, c', rnd', hg, hm, hl⟩ := hchild c0 (List.get?_mem hget0) _ rnd.tail hc
      refine ⟨s, _, rnd', ?_, .alternate (List.get?_mem hget0) hm,
        .mk (LoweredList_set sub0 sub _ c0 c' hsub hget0 hl) hmax⟩
      rw [generate_alternate, Intn_of_pos rnd _ hlen]
      simp only [Outcome.bind_ok]
      rw [hget]
      simp only [hg, Outcome.bind_ok]

theorem Generate_sound (re0 : Regexp) (hwf : wellFormed re0 = true)
    (henc : encodable re0 = true) (limit : Int) (hlim : 1 ≤ limit) (hlim2 : limit < maxInt)
    (n : Nat)
    (hn : budget limit re0 ≤ n) (re : Regexp) (hlow : Lowered re0 re) (rnd : Rand) :
    ∃ s g', Generate n ⟨re, rnd, limit⟩ = .ok (s, g') ∧ Matches re0 s ∧ Lowered re0 g'.re ∧
      g'.limit = limit := by
  have hM : limit ≤ ((Nat.max limit.toNat (maxMin re0) : Nat) : Int) := by
    have h1 : limit.toNat ≤ Nat.max limit.toNat (maxMin re0) := Nat.le_max_left _ _
    omega
  obtain ⟨s, re', rnd', hg, hm, hl⟩ := generate_sound limit hlim hlim2 _ hM n re0 re rnd hwf henc
    (Nat.le_max_right _ _) (by unfold budget at hn; omega) hlow
  exact ⟨s, ⟨re', rnd', limit⟩, by simp [Generate, hg], hm, hl, rfl⟩

/-- C1, amended: let `re0` be a tree built only from literal, non-empty character
class, capture, concatenation, alternation, quest, star, plus and repeat nodes
(`0 <= Min <= Max`, or `Max` unbounded) in which every literal rune is a Unicode
scalar value and every character class consists of intervals of scalar values or
contains U+FFFD. For a generator whose tree is `re0`, fresh or as earlier
`Generate` calls left it, with a limit of at least 1 and below the largest `int`,
and any state of the random source, `k` consecutive `Generate` calls return `k`
strings and each of them is matched by `re0` as a whole. -/
theorem Generate_matches (re0 : Regexp) (g : Generator) (n k : Nat)
    (hwf : wellFormed re0 = true) (henc : encodable re0 = true) (hlow : Lowered re0 g.re)
    (hlim : 1 ≤ g.limit) (hlim2 : g.limit < maxInt) (hn : budget g.limit re0 ≤ n) :
    ∃ ss g', Generates n k g = .ok (ss, g') ∧ ss.length = k ∧ ∀ s ∈ ss, Matches re0 s := by
  induction k generalizing g with
  | zero => exact ⟨[], g, rfl, rfl, by simp⟩
  | succ k ih =>
    obtain ⟨re, rnd, limit⟩ := g
    obtain ⟨s, g1, hg, hm, hl, hlimit⟩ :=
      Generate_sound re0 hwf henc limit hlim hlim2 n hn re hlow rnd
    obtain ⟨ss, g', hgs, hlen, hall⟩ := ih g1 hl (by rw [hlimit]; exact hlim)
      (by rw [hlimit]; exact hlim2) (by rw [hlimit]; exact hn)
    refine ⟨s :: ss, g', by simp [Generates, hg, hgs], by simp [hlen], ?_⟩
    intro t ht
    rcases List.mem_cons.mp ht with rfl | hmem
    · exact hm
    · exact hall t hmem

theorem Generate_matches_witness :
    ∃ ss g', Generates 13 2 ⟨aRepeat3up, constRand 4, defaultLimit⟩ = .ok (ss, g') ∧
      ss.length = 2 ∧ ∀ s ∈ ss, Matches aRepeat3up s :=
  Generate_matches aRepeat3up ⟨aRepeat3up, constRand 4, defaultLimit⟩ 13 2 (by decide)
    (by decide) (Lowered_refl aRepeat3up) (by decide) (by decide) (by decide)

/-- C1 as stated fails: the tree of the pattern `\x{D800}` is a literal node, yet
`Generate` returns the string U+FFFD, which the literal does not match; the
character class `[^\x{FFFD}]` generates U+FFFD, which it excludes, when the draw
inside its first interval is a surrogate code point; and under the largest `int`
as limit the sum `g.limit+1` of the star case overflows, so that `a*` returns no
string at all. -/
theorem surrogateLiteral_not_matched :
    (wellFormed surrogateLiteral = true ∧
      output (Generate 1 ⟨surrogateLiteral, constRand 0, defaultLimit⟩) = some [0xFFFD] ∧
      ¬ Matches surrogateLiteral [0xFFFD]) ∧
    (wellFormed notReplacement = true ∧
      output (Generate 1 ⟨notReplacement, Rand.cons 0 (constRand 0xD800), defaultLimit⟩) =
        some [0xFFFD] ∧
      ¬ Matches notReplacement [0xFFFD]) ∧
    (wellFormed aStar = true ∧ 1 ≤ maxInt ∧
      (Generate 3 (Limit ⟨aStar, constRand 0, defaultLimit⟩ maxInt)).isPanic = true) := by
  refine ⟨⟨by decide, by decide, ?_⟩, ⟨by decide, by decide, ?_⟩, by decide⟩
  · intro h
    unfold surrogateLiteral literal at h
    cases h
  · intro h
    unfold notReplacement charClass at h
    cases h with
    | charClass hp hin =>
      have hcls : pairs [0, 0xFFFC, 0xFFFE, 0x10FFFF] =
          .ok [⟨0, 0xFFFC⟩, ⟨0xFFFE, 0x10FFFF⟩] := rfl
      rw [hcls] at hp
      cases hp
      revert hin
      decide

/-! ## Membership in a range set -/

/-- C16: `rr.inRange(v)` is true exactly when some interval of the set has
`min <= v <= max`, bounds included; so every code point from `min` to `max` of an
interval is in range, also as a member of a set, and the empty set contains nothing. -/
theorem rr_inRange_iff :
    (∀ (xs : rr) (v : Int), rr.inRange xs v = true ↔ ∃ x ∈ xs, x.min ≤ v ∧ v ≤ x.max) ∧
    (∀ (x : r) (v : Int), x.inRange v = true ↔ (x.min ≤ v ∧ v ≤ x.max)) ∧
    (∀ v : Int, rr.inRange [] v = false) := by
  have hr : ∀ (x : r) (v : Int), x.inRange v = true ↔ (x.min ≤ v ∧ v ≤ x.max) := by
    intro x v
    unfold r.inRange
    simp only [ge_iff_le, Bool.and_eq_true, decide_eq_true_eq]
  refine ⟨?_, hr, fun _ => rfl⟩
  intro xs v
  constructor
  · intro h
    obtain ⟨x, hx, hxv⟩ := rr_inRange_mem xs v h
    exact ⟨x, hx, (hr x v).mp hxv⟩
  · rintro ⟨x, hx, hxv⟩
    exact rr_inRange_of_mem xs x v hx ((hr x v).mpr hxv)

/-! ## Selection of interval and rune -/

/-- C17: on a non-empty range set whose intervals have `min <= max`,
`rr.randRune` consumes exactly two values of the source: the first, reduced
modulo the number of intervals, is the index of the selected interval, whatever
the widths; the second, reduced modulo the width of that interval, is added to
its `min`. Every code point of every interval of a set is returned for some
state of the source. -/
theorem rr_randRune_draws :
    (∀ (xs : rr) (rnd : Rand), xs ≠ [] → (∀ x ∈ xs, x.min ≤ x.max) →
      ∃ (x : r) (d1 d2 : Int), d1 = (rnd 0 : Int) % (xs.length : Int) ∧ 0 ≤ d1 ∧
        d1 < (xs.length : Int) ∧ xs.get? d1.toNat = some x ∧
        d2 = (rnd 1 : Int) % (x.max - x.min + 1) ∧ 0 ≤ d2 ∧ d2 ≤ x.max - x.min ∧
        rr.randRune xs rnd = .ok (x.min + d2, rnd.tail.tail)) ∧
    (∀ (xs : rr) (j : Nat) (x : r) (v : Int), xs.get? j = some x → x.min ≤ v → v ≤ x.max →
      ∃ rnd : Rand, rr.randRune xs rnd = .ok (v, rnd.tail.tail)) := by
  refine ⟨?_, ?_⟩
  · intro xs rnd hne hall
    obtain ⟨x, hget, heq⟩ := rr_randRune_spec xs rnd hne
    have hlen : 0 < (xs.length : Int) := by
      have : 0 < xs.length := List.length_pos.mpr hne
      exact_mod_cast this
    have hb := Intn_bounds rnd _ hlen
    have hx := hall x (List.get?_mem hget)
    have hb2 := Intn_bounds rnd.tail (x.max - x.min + 1) (by omega)
    refine ⟨x, _, _, rfl, hb.1, hb.2, hget, rfl, ?_, ?_, ?_⟩
    · exact hb2.1
    · have : (rnd 1 : Int) = (rnd.tail 0 : Int) := rfl
      rw [this]; omega
    · rw [heq, (r_randRune_spec x rnd.tail hx).1, add_comm]
      rfl
  · intro xs j x v hget h1 h2
    have hj : j < xs.length := by
      by_contra hcon
      rw [List.get?_eq_none.mpr (by omega)] at hget
      cases hget
    refine ⟨Rand.cons j (Rand.cons (v - x.min).toNat (constRand 0)), ?_⟩
    unfold rr.randRune
    rw [Intn_cons j _ _ (by exact_mod_cast hj)]
    simp only [Outcome.bind_ok, Int.toNat_ofNat, hget]
    unfold r.randRune
    rw [Intn_cons _ _ _ (by omega)]
    simp only [Outcome.bind_ok, Rand.tail_cons]
    rw [Int.toNat_of_nonneg (by omega)]
    congr 2
    omega

theorem rr_randRune_draws_witness :
    ∃ (x : r) (d1 d2 : Int), d1 = (constRand 5 0 : Int) % (punctuation.length : Int) ∧ 0 ≤ d1 ∧
      d1 < (punctuation.length : Int) ∧ punctuation.get? d1.toNat = some x ∧
      d2 = (constRand 5 1 : Int) % (x.max - x.min + 1) ∧ 0 ≤ d2 ∧ d2 ≤ x.max - x.min ∧
      rr.randRune punctuation (constRand 5) = .ok (x.min + d2, (constRand 5).tail.tail) :=
  rr_randRune_draws.1 punctuation (constRand 5) (by decide) (by decide)

/-! ## Nodes that produce nothing -/

theorem generate_nonProducing_aux (limit : Int) (n : Nat) (op : Op) (sub : List Regexp)
    (rune : List Int) (mn mx : Int) (rnd : Rand) (hop : nonProducing op = true) :
    generate limit (n + 1) (.mk op sub rune mn mx) rnd = .ok ([], .mk op sub rune mn mx, rnd) := by
  cases op <;> first | rfl | (simp [nonProducing] at hop)

/-- C18: for a no-match, empty-match, begin or end of line, begin or end of text,
any-character, any-character-but-newline, word-boundary or no-word-boundary node
`generate` returns the empty string, leaves the tree as it is and hands back the
random source untouched, for every limit; the pattern `.` generates `""`. -/
theorem generate_nonProducing :
    (∀ (limit : Int) (n : Nat) (op : Op) (sub : List Regexp) (rune : List Int) (mn mx : Int)
      (rnd : Rand), nonProducing op = true →
      generate limit (n + 1) (.mk op sub rune mn mx) rnd = .ok ([], .mk op sub rune mn mx, rnd)) ∧
    (∀ (limit : Int) (n : Nat) (rnd : Rand),
      output (Generate (n + 1) ⟨anyDot, rnd, limit⟩) = some []) := by
  refine ⟨generate_nonProducing_aux, ?_⟩
  intro limit n rnd
  unfold Generate anyDot
  rw [generate_nonProducing_aux limit n .OpAnyCharNotNL [] [] 0 0 rnd rfl]
  rfl

theorem generate_nonProducing_witness :
    generate 10 (0 + 1) (.mk .OpWordBoundary [] [] 0 0) (constRand 3) =
      .ok ([], .mk .OpWordBoundary [] [] 0 0, constRand 3) :=
  generate_nonProducing.1 10 0 .OpWordBoundary [] [] 0 0 (constRand 3) (by decide)

theorem rr_inRange_iff_witness : rr.inRange alphabetic 100 = true :=
  (rr_inRange_iff.1 alphabetic 100).mpr ⟨⟨97, 122⟩, by decide, by decide, by decide⟩

/-! ## The plus and repeat rules -/

theorem pass_two_literals (limit : Int) (n : Nat) (v w : Int) (hv : validRune v = true)
    (hw : validRune w = true) (l : List Int) (rnd : Rand) :
    pass (generate limit (n + 1)) [literal [v], literal [w]] l rnd =
      .ok (l ++ [v, w], [literal [v], literal [w]], rnd) := by
  simp [pass, literal, generate_literal, literalString, stringOfRune, hv, hw]

theorem passes_two_literals (limit : Int) (n : Nat) (v w : Int) (hv : validRune v = true)
    (hw : validRune w = true) :
    ∀ (k : Nat) (l : List Int) (rnd : Rand),
      passes (pass (generate limit (n + 1))) k (l, [literal [v], literal [w]], rnd) =
        .ok (l ++ (List.replicate k [v, w]).flatten, [literal [v], literal [w]], rnd) := by
  intro k
  induction k with
  | zero => intro l rnd; simp [passes]
  | succ k ih =>
    intro l rnd
    simp only [passes, pass_two_literals limit n v w hv hw, Outcome.bind_ok]
    rw [ih]
    simp [List.replicate_succ]

/-- C14: under a limit `L >= 1` a plus node draws once, `d` from `[0, L)`, and
then makes exactly `c = d + 1` passes over its body, `1 <= c <= L`: `generate`
equals `c` passes started from the source after that one draw. A pass generates
the first child, appends its string, and goes on with the remaining children and
the source the child left; so a plus over the literals `a` and `b` returns `ab`
repeated `c` times. -/
theorem plus_rule :
    (∀ (limit : Int) (n : Nat) (sub : List Regexp) (rune : List Int) (mn mx : Int) (rnd : Rand),
      1 ≤ limit → limit < n →
      ∃ c : Int, c = (rnd 0 : Int) % limit + 1 ∧ 1 ≤ c ∧ c ≤ limit ∧
        generate limit (n + 1) (.mk .OpPlus sub rune mn mx) rnd =
          (passes (pass (generate limit n)) c.toNat ([], sub, rnd.tail)).bind fun st =>
            .ok (st.1, .mk .OpPlus st.2.1 rune mn mx, st.2.2)) ∧
    (∀ (gen : Regexp → Rand → Outcome (List Int × Regexp × Rand)) (c : Regexp)
      (rest : List Regexp) (l : List Int) (rnd : Rand),
      pass gen (c :: rest) l rnd =
        (gen c rnd).bind fun p =>
          (pass gen rest (l ++ p.1) p.2.2).bind fun q => .ok (q.1, p.2.1 :: q.2.1, q.2.2)) ∧
    (∀ (gen : Regexp → Rand → Outcome (List Int × Regexp × Rand)) (l : List Int) (rnd : Rand),
      pass gen [] l rnd = .ok (l, [], rnd)) ∧
    (∀ (limit : Int) (n : Nat) (rnd : Rand), 1 ≤ limit → limit < n →
      generate limit (n + 1) (.mk .OpPlus [literal [97], literal [98]] [] 0 0) rnd =
        .ok ((List.replicate ((rnd 0 : Int) % limit + 1).toNat [97, 98]).flatten,
          .mk .OpPlus [literal [97], literal [98]] [] 0 0, rnd.tail)) := by
  have hrule : ∀ (limit : Int) (n : Nat) (sub : List Regexp) (rune : List Int) (mn mx : Int)
      (rnd : Rand), 1 ≤ limit → limit < n →
      generate limit (n + 1) (.mk .OpPlus sub rune mn mx) rnd =
        (passes (pass (generate limit n)) ((rnd 0 : Int) % limit + 1).toNat
          ([], sub, rnd.tail)).bind fun st =>
          .ok (st.1, .mk .OpPlus st.2.1 rune mn mx, st.2.2) := by
    intro limit n sub rune mn mx rnd hlim hn
    have hb := Intn_bounds rnd limit (by omega)
    rw [generate_plus, Intn_of_pos rnd _ (by omega)]
    simp only [Outcome.bind_ok]
    rw [forLoop_countCond _ _ ((rnd 0 : Int) % limit + 1).toNat n 0 _ (by simp) (by omega)]
  refine ⟨?_, fun _ _ _ _ _ => rfl, fun _ _ _ => rfl, ?_⟩
  · intro limit n sub rune mn mx rnd hlim hn
    have hb := Intn_bounds rnd limit (by omega)
    exact ⟨_, rfl, by omega, by omega, hrule limit n sub rune mn mx rnd hlim hn⟩
  · intro limit n rnd hlim hn
    obtain ⟨m, rfl⟩ : ∃ m, n = m + 1 := ⟨n - 1, by omega⟩
    rw [hrule limit (m + 1) _ _ _ _ rnd hlim hn,
      passes_two_literals limit m 97 98 (by decide) (by decide)]
    simp

theorem plus_rule_witness :
    generate 10 (11 + 1) (.mk .OpPlus [literal [97], literal [98]] [] 0 0) (constRand 2) =
      .ok ((List.replicate ((constRand 2 0 : Int) % 10 + 1).toNat [97, 98]).flatten,
        .mk .OpPlus [literal [97], literal [98]] [] 0 0, (constRand 2).tail) ∧
      (List.replicate ((constRand 2 0 : Int) % 10 + 1).toNat [(97 : Int), 98]).flatten =
        [97, 98, 97, 98, 97, 98] :=
  ⟨plus_rule.2.2.2 10 11 (constRand 2) (by decide) (by decide), by decide⟩

/-- C13, amended: for a repeat node with `0 <= Min` under a limit `L`, let `eff`
be `L` when `Max` is -1 or above `L`, and `Max` otherwise. If `eff > Min` and
`eff` is below the largest `int`, `generate` draws once, `d` from `[0, eff]`, and
makes `max(Min, d)` passes from the source after that draw; if `eff <= Min` it
draws nothing and makes exactly `Min` passes. The number of passes is at least
`Min` and at most `max(Min, eff)`, and the node is left with `Max = eff`. Over the
literal `a` the output is `a` repeated that many times. -/
theorem repeat_rule (limit : Int) (n : Nat) (rune : List Int) (mn mx : Int) (rnd : Rand)
    (eff : Int) (heff : eff = (if mx = -1 ∨ limit < mx then limit else mx))
    (hmn : 0 ≤ mn) (hn1 : mn < n) (hn2 : eff < n) :
    (eff > mn → eff < maxInt →
      ∃ d : Int, d = (rnd 0 : Int) % (eff + 1) ∧ 0 ≤ d ∧ d ≤ eff ∧
        mn ≤ max mn d ∧ max mn d ≤ max mn eff ∧
        (∀ sub : List Regexp,
          generate limit (n + 1) (.mk .OpRepeat sub rune mn mx) rnd =
            (passes (pass (generate limit n)) (max mn d).toNat ([], sub, rnd.tail)).bind fun st =>
              .ok (st.1, .mk .OpRepeat st.2.1 rune mn eff, st.2.2)) ∧
        generate limit (n + 1) (.mk .OpRepeat [literal [97]] rune mn mx) rnd =
          .ok (List.replicate (max mn d).toNat 97, .mk .OpRepeat [literal [97]] rune mn eff,
            rnd.tail)) ∧
    (¬ eff > mn →
      (∀ sub : List Regexp,
        generate limit (n + 1) (.mk .OpRepeat sub rune mn mx) rnd =
          (passes (pass (generate limit n)) mn.toNat ([], sub, rnd)).bind fun st =>
            .ok (st.1, .mk .OpRepeat st.2.1 rune mn eff, st.2.2)) ∧
      generate limit (n + 1) (.mk .OpRepeat [literal [97]] rune mn mx) rnd =
        .ok (List.replicate mn.toNat 97, .mk .OpRepeat [literal [97]] rune mn eff, rnd)) := by
  obtain ⟨m, rfl⟩ : ∃ m, n = m + 1 := ⟨n - 1, by omega⟩
  refine ⟨?_, ?_⟩
  · intro hgt hmax
    have hb := Intn_bounds rnd (eff + 1) (by omega)
    have hcount : max mn ((rnd 0 : Int) % (eff + 1)) ≤ max mn eff :=
      max_le_max (le_refl _) (by omega)
    have hdraw : ∀ sub : List Regexp,
        generate limit (m + 1 + 1) (.mk .OpRepeat sub rune mn mx) rnd =
          (passes (pass (generate limit (m + 1))) (max mn ((rnd 0 : Int) % (eff + 1))).toNat
            ([], sub, rnd.tail)).bind fun st =>
            .ok (st.1, .mk .OpRepeat st.2.1 rune mn eff, st.2.2) := by
      intro sub
      rw [generate_repeat, ← heff, if_pos hgt, wrapInt_of_le _ (by omega),
        Intn_of_pos rnd _ (by omega)]
      simp only [Outcome.bind_ok]
      rw [repeatCond_eq, forLoop_countCond _ _ _ (m + 1) 0 _ rfl
        (by
          have h2 : max mn eff < ((m + 1 : Nat) : Int) := max_lt hn1 hn2
          omega)]
      simp only [sub_zero]
    refine ⟨_, rfl, hb.1, by omega, le_max_left _ _, hcount, hdraw, ?_⟩
    rw [hdraw, passes_literal limit m 97 (by decide)]
    simp
  · intro hle
    have hnodraw : ∀ sub : List Regexp,
        generate limit (m + 1 + 1) (.mk .OpRepeat sub rune mn mx) rnd =
          (passes (pass (generate limit (m + 1))) mn.toNat ([], sub, rnd)).bind fun st =>
            .ok (st.1, .mk .OpRepeat st.2.1 rune mn eff, st.2.2) := by
      intro sub
      rw [generate_repeat, ← heff, if_neg hle]
      simp only [Outcome.bind_ok]
      rw [repeatCond_eq, forLoop_countCond _ _ mn.toNat (m + 1) 0 _
        (by rw [max_eq_left hmn]; simp) (by omega)]
    refine ⟨hnodraw, ?_⟩
    rw [hnodraw, passes_literal limit m 97 (by decide)]
    simp

theorem repeat_rule_witness :
    ∃ d : Int, d = (constRand 5 0 : Int) % (6 + 1) ∧ 0 ≤ d ∧ d ≤ 6 ∧
      3 ≤ max 3 d ∧ max 3 d ≤ max 3 6 ∧
      (∀ sub : List Regexp,
        generate 10 (11 + 1) (.mk .OpRepeat sub [] 3 6) (constRand 5) =
          (passes (pass (generate 10 11)) (max 3 d).toNat ([], sub, (constRand 5).tail)).bind
            fun st => .ok (st.1, .mk .OpRepeat st.2.1 [] 3 6, st.2.2)) ∧
      generate 10 (11 + 1) (.mk .OpRepeat [literal [97]] [] 3 6) (constRand 5) =
        .ok (List.replicate (max 3 d).toNat 97, .mk .OpRepeat [literal [97]] [] 3 6,
          (constRand 5).tail) :=
  (repeat_rule 10 11 [] 3 6 (constRand 5) 6 (by decide) (by decide) (by decide)
    (by decide)).1 (by decide) (by decide)

/-- C13 as stated fails: for `a{3,}` under the largest `int` as limit the
effective maximum is that limit and exceeds `Min = 3`, but the sum `re.Max+1`
overflows to the smallest `int`, `Intn` panics and no draw is made. -/
theorem repeat_overflow_panics :
    0 ≤ maxInt ∧ (3 : Int) < maxInt ∧ wrapInt (maxInt + 1) = minInt ∧
      (Generate 5 (Limit ⟨aRepeat3up, constRand 0, defaultLimit⟩ maxInt)).isPanic = true := by
  decide

/-! ## Star redraws its bound -/

/-- C12: the star loop draws its bound again before every iteration. Under limit 2,
on a source that delivers 2 and then 0, the first draw is 2 but `a*` makes one
pass only, and two values of the source are consumed for the count. -/
theorem star_redraws_bound (rest : Rand) :
    (Rand.cons 2 (Rand.cons 0 rest) 0 : Int) % (2 + 1) = 2 ∧
      generate 2 3 aStar (Rand.cons 2 (Rand.cons 0 rest)) = .ok ([97], aStar, rest) := by
  exact ⟨rfl, rfl⟩

/-! ## A used generator -/

/-- C11: after `Limit(5)` and one `Generate` the tree of `a{3,}` holds `Max = 5`;
a later `Limit(10)` and `Seed(10)` then give a string of 4 characters, whereas a
fresh generator for the same pattern after `Limit(10)` and `Seed(10)` gives 10. -/
theorem used_generator_differs :
    output ((Generate 13 (Limit ⟨aRepeat3up, constRand 0, defaultLimit⟩ 5)).bind fun p =>
        Generate 13 (Seed affineSource (Limit p.2 10) 10)) = some [97, 97, 97, 97] ∧
      output (Generate 13 (Seed affineSource (Limit ⟨aRepeat3up, constRand 0, defaultLimit⟩ 10) 10)) =
        some [97, 97, 97, 97, 97, 97, 97, 97, 97, 97] := by
  refine ⟨by decide, by decide⟩

/-! ## What a call changes -/

mutual
theorem MaxOnly_refl : ∀ re : Regexp, MaxOnly re re
  | .mk _ sub _ _ _ => .mk (MaxOnlyList_refl sub) (fun _ => rfl)
theorem MaxOnlyList_refl : ∀ sub : List Regexp, MaxOnlyList sub sub
  | [] => .nil
  | c :: rest => .cons (MaxOnly_refl c) (MaxOnlyList_refl rest)
end

mutual
theorem MaxOnly_trans : ∀ (a b c : Regexp), MaxOnly a b → MaxOnly b c → MaxOnly a c
  | .mk _ sub _ _ _, _, _, h1, h2 => by
    cases h1 with
    | mk hs1 hm1 =>
      cases h2 with
      | mk hs2 hm2 =>
        exact .mk (MaxOnlyList_trans sub _ _ hs1 hs2) (fun hop => (hm2 hop).trans (hm1 hop))
theorem MaxOnlyList_trans : ∀ (a b c : List Regexp), MaxOnlyList a b → MaxOnlyList b c →
    MaxOnlyList a c
  | [], _, _, h1, h2 => by cases h1; cases h2; exact .nil
  | x :: rest, _, _, h1, h2 => by
    cases h1 with
    | cons hx1 hr1 =>
      cases h2 with
      | cons hx2 hr2 =>
        exact .cons (MaxOnly_trans x _ _ hx1 hx2) (MaxOnlyList_trans rest _ _ hr1 hr2)
end

theorem MaxOnlyList_set : ∀ (sub : List Regexp) (i : Nat) (c c' : Regexp),
    sub.get? i = some c → MaxOnly c c' → MaxOnlyList sub (sub.set i c')
  | [], _, _, _, hget, _ => by simp at hget
  | d :: rest, i, c, c', hget, hc => by
    cases i with
    | zero =>
      simp only [List.get?_cons_zero, Option.some.injEq] at hget
      subst hget
      exact .cons hc (MaxOnlyList_refl rest)
    | succ i =>
      simp only [List.get?_cons_succ] at hget
      exact .cons (MaxOnly_refl d) (MaxOnlyList_set rest i c c' hget hc)

theorem pass_frame (gen : Regexp → Rand → Outcome (List Int × Regexp × Rand))
    (hgen : ∀ c rnd s c' rnd', gen c rnd = .ok (s, c', rnd') → MaxOnly c c') :
    ∀ (sub : List Regexp) (l : List Int) (rnd : Rand) (st : LoopState),
      pass gen sub l rnd = .ok st → MaxOnlyList sub st.2.1
  | [], l, rnd, st, h => by
    simp only [pass, Outcome.ok.injEq] at h
    subst h
    exact .nil
  | c :: rest, l, rnd, st, h => by
    rw [pass] at h
    obtain ⟨p, hp, h⟩ := Outcome.bind_eq_ok _ _ _ h
    obtain ⟨q, hq, h⟩ := Outcome.bind_eq_ok _ _ _ h
    simp only [Outcome.ok.injEq] at h
    subst h
    exact .cons (hgen c rnd p.1 p.2.1 p.2.2 hp) (pass_frame gen hgen rest _ _ q hq)

/-- Partial-correctness loop rule: what every pass preserves holds of the
subexpressions when the loop returns. -/
theorem forLoop_preserves (cond : Int → Rand → Outcome (Bool × Rand))
    (body : List Regexp → List Int → Rand → Outcome LoopState)
    (Inv : List Regexp → Prop)
    (hb : ∀ sub l rnd st', Inv sub → body sub l rnd = .ok st' → Inv st'.2.1) :
    ∀ (n : Nat) (i : Int) (st st' : LoopState), Inv st.2.1 →
      forLoop cond body n i st = .ok st' → Inv st'.2.1 := by
  intro n
  induction n with
  | zero => intro i st st' _ h; cases h
  | succ n ih =>
    intro i st st' hinv h
    rw [forLoop_succ] at h
    obtain ⟨c, _, h⟩ := Outcome.bind_eq_ok _ _ _ h
    by_cases hc : c.1 = true
    · rw [if_pos hc] at h
      obtain ⟨st1, hst1, h⟩ := Outcome.bind_eq_ok _ _ _ h
      exact ih (i + 1) st1 st' (hb _ _ _ _ hinv hst1) h
    · rw [if_neg hc] at h
      simp only [Outcome.ok.injEq] at h
      subst h
      exact hinv

theorem forLoop_frame (limit : Int) (m : Nat)
    (hgen : ∀ c rnd s c' rnd', generate limit m c rnd = .ok (s, c', rnd') → MaxOnly c c')
    (cond : Int → Rand → Outcome (Bool × Rand)) (n : Nat) (i : Int) (l : List Int)
    (sub : List Regexp) (rnd : Rand) (st' : LoopState)
    (h : forLoop cond (pass (generate limit m)) n i (l, sub, rnd) = .ok st') :
    MaxOnlyList sub st'.2.1 :=
  forLoop_preserves cond (pass (generate limit m)) (fun s => MaxOnlyList sub s)
    (fun s l rnd st1 hinv hp =>
      MaxOnlyList_trans sub s st1.2.1 hinv (pass_frame _ hgen s l rnd st1 hp))
    n i (l, sub, rnd) st' (MaxOnlyList_refl sub) h

theorem generate_frame (limit : Int) :
    ∀ (n : Nat) (re : Regexp) (rnd : Rand) (s : List Int) (re' : Regexp) (rnd' : Rand),
      generate limit n re rnd = .ok (s, re', rnd') → MaxOnly re re' := by
  intro n
  induction n with
  | zero => intro re rnd s re' rnd' h; rw [generate_zero] at h; cases h
  | succ n ih =>
    intro re rnd s re' rnd' h
    obtain ⟨op, sub, rune, mn, mx⟩ := re
    cases op
    case OpLiteral =>
      rw [generate_literal] at h
      simp only [Outcome.ok.injEq, Prod.mk.injEq] at h
      obtain ⟨_, rfl, _⟩ := h
      exact MaxOnly_refl _
    case OpCharClass =>
      rw [generate_charClass] at h
      obtain ⟨cls, _, h⟩ := Outcome.bind_eq_ok _ _ _ h
      obtain ⟨p, _, h⟩ := Outcome.bind_eq_ok _ _ _ h
      simp only [Outcome.ok.injEq, Prod.mk.injEq] at h
      obtain ⟨_, rfl, _⟩ := h
      exact MaxOnly_refl _
    case OpCapture =>
      cases sub with
      | nil => cases h
      | cons c rest =>
        rw [generate_capture] at h
        obtain ⟨p, hp, h⟩ := Outcome.bind_eq_ok _ _ _ h
        simp only [Outcome.ok.injEq, Prod.mk.injEq] at h
        obtain ⟨_, rfl, _⟩ := h
        exact .mk (.cons (ih c rnd p.1 p.2.1 p.2.2 hp) (MaxOnlyList_refl rest)) (fun _ => rfl)
    case OpStar =>
      rw [generate_star] at h
      obtain ⟨st, hst, h⟩ := Outcome.bind_eq_ok _ _ _ h
      simp only [Outcome.ok.injEq, Prod.mk.injEq] at h
      obtain ⟨_, rfl, _⟩ := h
      exact .mk (forLoop_frame limit n ih _ n 0 [] sub rnd st hst) (fun _ => rfl)
    case OpPlus =>
      rw [generate_plus] at h
      obtain ⟨d, _, h⟩ := Outcome.bind_eq_ok _ _ _ h
      obtain ⟨st, hst, h⟩ := Outcome.bind_eq_ok _ _ _ h
      simp only [Outcome.ok.injEq, Prod.mk.injEq] at h
      obtain ⟨_, rfl, _⟩ := h
      exact .mk (forLoop_frame limit n ih _ n 0 [] sub d.2 st hst) (fun _ => rfl)
    case OpQuest =>
      rw [generate_quest] at h
      obtain ⟨st, hst, h⟩ := Outcome.bind_eq_ok _ _ _ h
      simp only [Outcome.ok.injEq, Prod.mk.injEq] at h
      obtain ⟨_, rfl, _⟩ := h
      exact .mk (forLoop_frame limit n ih _ n 0 [] sub rnd st hst) (fun _ => rfl)
    case OpRepeat =>
      rw [generate_repeat] at h
      obtain ⟨d, _, h⟩ := Outcome.bind_eq_ok _ _ _ h
      obtain ⟨st, hst, h⟩ := Outcome.bind_eq_ok _ _ _ h
      simp only [Outcome.ok.injEq, Prod.mk.injEq] at h
      obtain ⟨_, rfl, _⟩ := h
      exact .mk (forLoop_frame limit n ih _ n 0 [] sub d.2 st hst) (fun hop => absurd rfl hop)
    case OpConcat =>
      rw [generate_concat] at h
      obtain ⟨st, hst, h⟩ := Outcome.bind_eq_ok _ _ _ h
      simp only [Outcome.ok.injEq, Prod.mk.injEq] at h
      obtain ⟨_, rfl, _⟩ := h
      exact .mk (pass_frame _ ih sub [] rnd st hst) (fun _ => rfl)
    case OpAlternate =>
      rw [generate_alternate] at h
      obtain ⟨d, _, h⟩ := Outcome.bind_eq_ok _ _ _ h
      cases hget : sub.get? d.1.toNat with
      | none => rw [hget] at h; cases h
      | some c =>
        rw [hget] at h
        obtain ⟨p, hp, h⟩ := Outcome.bind_eq_ok _ _ _ h
        simp only [Outcome.ok.injEq, Prod.mk.injEq] at h
        obtain ⟨_, rfl, _⟩ := h
        exact .mk (MaxOnlyList_set sub _ c p.2.1 hget (ih c d.2 p.1 p.2.1 p.2.2 hp))
          (fun _ => rfl)
    all_goals
      replace h : Outcome.ok ([], _, rnd) = Outcome.ok (s, re', rnd') := h
      simp only [Outcome.ok.injEq, Prod.mk.injEq] at h
      obtain ⟨_, rfl, _⟩ := h
      exact MaxOnly_refl _

/-- C15: when `Generate` returns, the limit is what it was and the tree differs
from the one before at most in the `Max` field of repeat nodes: at every node the
operator, the subexpressions, the rune payload and `Min` are the same, and so is
`Max` unless the node is a repeat. -/
theorem Generate_frame (n : Nat) (g : Generator) (s : List Int) (g' : Generator)
    (h : Generate n g = .ok (s, g')) : g'.limit = g.limit ∧ MaxOnly g.re g'.re := by
  unfold Generate at h
  obtain ⟨p, hp, h⟩ := Outcome.bind_eq_ok _ _ _ h
  simp only [Outcome.ok.injEq, Prod.mk.injEq] at h
  obtain ⟨_, rfl⟩ := h
  exact ⟨rfl, generate_frame g.limit n g.re g.rand p.1 p.2.1 p.2.2 hp⟩

theorem Generate_frame_witness :
    (⟨.mk .OpRepeat [literal [97]] [] 3 10, (constRand 4).tail, 10⟩ : Generator).limit =
        (⟨aRepeat3up, constRand 4, 10⟩ : Generator).limit ∧
      MaxOnly (⟨aRepeat3up, constRand 4, 10⟩ : Generator).re
        (⟨.mk .OpRepeat [literal [97]] [] 3 10, (constRand 4).tail, 10⟩ : Generator).re :=
  Generate_frame 13 ⟨aRepeat3up, constRand 4, 10⟩ [97, 97, 97, 97]
    ⟨.mk .OpRepeat [literal [97]] [] 3 10, (constRand 4).tail, 10⟩ rfl

/-! ## What lowered `Max` fields leave alone -/

mutual
theorem MaxOnly_depth : ∀ (a b : Regexp), MaxOnly a b → depth b = depth a
  | .mk _ sub _ _ _, _, h => by
    cases h with
    | mk hs _ => rw [depth_mk, depth_mk, MaxOnlyList_depth sub _ hs]
theorem MaxOnlyList_depth : ∀ (a b : List Regexp), MaxOnlyList a b → depthList b = depthList a
  | [], _, h => by cases h; rfl
  | x :: rest, _, h => by
    cases h with
    | cons hx hr => rw [depthList, depthList, MaxOnly_depth x _ hx, MaxOnlyList_depth rest _ hr]
end

mutual
theorem MaxOnly_maxMin : ∀ (a b : Regexp), MaxOnly a b → maxMin b = maxMin a
  | .mk _ sub _ _ _, _, h => by
    cases h with
    | mk hs _ => rw [maxMin_mk, maxMin_mk, MaxOnlyList_maxMin sub _ hs]
theorem MaxOnlyList_maxMin : ∀ (a b : List Regexp), MaxOnlyList a b →
    maxMinList b = maxMinList a
  | [], _, h => by cases h; rfl
  | x :: rest, _, h => by
    cases h with
    | cons hx hr =>
      rw [maxMinList, maxMinList, MaxOnly_maxMin x _ hx, MaxOnlyList_maxMin rest _ hr]
end

theorem MaxOnlyList_isEmpty (a b : List Regexp) (h : MaxOnlyList a b) : b.isEmpty = a.isEmpty := by
  cases h <;> rfl

theorem nodeSafe_congr (op : Op) (sub sub' : List Regexp) (rune : List Int) (mn mx mx' : Int)
    (h : sub'.isEmpty = sub.isEmpty) :
    nodeSafe (.mk op sub' rune mn mx') = nodeSafe (.mk op sub rune mn mx) := by
  cases op <;> simp [nodeSafe, isClass, h]

mutual
theorem MaxOnly_safe : ∀ (a b : Regexp), MaxOnly a b →
    allNodes nodeSafe b = allNodes nodeSafe a
  | .mk _ sub _ _ _, _, h => by
    cases h with
    | mk hs _ =>
      rw [allNodes_mk, allNodes_mk, MaxOnlyList_safe sub _ hs,
        nodeSafe_congr _ _ _ _ _ _ _ (MaxOnlyList_isEmpty _ _ hs)]
theorem MaxOnlyList_safe : ∀ (a b : List Regexp), MaxOnlyList a b →
    allNodesList nodeSafe b = allNodesList nodeSafe a
  | [], _, h => by cases h; rfl
  | x :: rest, _, h => by
    cases h with
    | cons hx hr =>
      rw [allNodesList, allNodesList, MaxOnly_safe x _ hx, MaxOnlyList_safe rest _ hr]
end

/-! ## Outcomes that cannot occur -/

theorem Outcome.bind_ne_fuel {α β : Type} (o : Outcome α) (f : α → Outcome β)
    (ho : o ≠ .fuel) (hf : ∀ a, o = .ok a → f a ≠ .fuel) : o.bind f ≠ .fuel := by
  cases o with
  | ok a => exact hf a rfl
  | panic => intro h; cases h
  | fuel => exact absurd rfl ho

theorem Outcome.bind_ne_panic {α β : Type} (o : Outcome α) (f : α → Outcome β)
    (ho : o ≠ .panic) (hf : ∀ a, o = .ok a → f a ≠ .panic) : o.bind f ≠ .panic := by
  cases o with
  | ok a => exact hf a rfl
  | panic => exact absurd rfl ho
  | fuel => intro h; cases h

theorem Intn_ne_fuel (rnd : Rand) (n : Int) : Intn rnd n ≠ .fuel := by
  unfold Intn
  split <;> (intro h; cases h)

theorem pairs_ne_fuel : ∀ rune : List Int, pairs rune ≠ .fuel
  | [] => by intro h; cases h
  | [_] => by intro h; cases h
  | _ :: _ :: rest => by
    rw [pairs]
    exact Outcome.bind_ne_fuel _ _ (pairs_ne_fuel rest) (fun _ _ h => by cases h)

theorem randRune_ne_fuel (cls : rr) (rnd : Rand) : rr.randRune cls rnd ≠ .fuel := by
  unfold rr.randRune
  refine Outcome.bind_ne_fuel _ _ (Intn_ne_fuel _ _) ?_
  intro p _
  split
  · unfold r.randRune
    exact Outcome.bind_ne_fuel _ _ (Intn_ne_fuel _ _) (fun _ _ h => by cases h)
  · intro h; cases h

theorem pass_ne_fuel (gen : Regexp → Rand → Outcome (List Int × Regexp × Rand)) :
    ∀ (sub : List Regexp), (∀ c ∈ sub, ∀ rnd, gen c rnd ≠ .fuel) →
      ∀ (l : List Int) (rnd : Rand), pass gen sub l rnd ≠ .fuel
  | [], _, l, rnd => by intro h; cases h
  | c :: rest, hgen, l, rnd => by
    rw [pass]
    refine Outcome.bind_ne_fuel _ _ (hgen c (List.mem_cons_self _ _) rnd) ?_
    intro p _
    refine Outcome.bind_ne_fuel _ _
      (pass_ne_fuel gen rest (fun d hd => hgen d (List.mem_cons_of_mem _ hd)) _ _) ?_
    intro q _ h
    cases h

theorem pass_ne_panic (gen : Regexp → Rand → Outcome (List Int × Regexp × Rand)) :
    ∀ (sub : List Regexp), (∀ c ∈ sub, ∀ rnd, gen c rnd ≠ .panic) →
      ∀ (l : List Int) (rnd : Rand), pass gen sub l rnd ≠ .panic
  | [], _, l, rnd => by intro h; cases h
  | c :: rest, hgen, l, rnd => by
    rw [pass]
    refine Outcome.bind_ne_panic _ _ (hgen c (List.mem_cons_self _ _) rnd) ?_
    intro p _
    refine Outcome.bind_ne_panic _ _
      (pass_ne_panic gen rest (fun d hd => hgen d (List.mem_cons_of_mem _ hd)) _ _) ?_
    intro q _ h
    cases h

/-- Termination rule for loops: a loop whose condition is false from `hi` on
stays within a budget above `hi - i`, provided neither condition nor body
exceeds theirs. -/
theorem forLoop_ne_fuel (cond : Int → Rand → Outcome (Bool × Rand))
    (body : List Regexp → List Int → Rand → Outcome LoopState)
    (Inv : List Regexp → Prop) (hi : Int)
    (hc : ∀ i rnd, cond i rnd ≠ .fuel ∧
      ∀ c, cond i rnd = .ok c → hi ≤ i → c.1 = false)
    (hb : ∀ sub l rnd, Inv sub → body sub l rnd ≠ .fuel ∧
      ∀ st', body sub l rnd = .ok st' → Inv st'.2.1) :
    ∀ (n : Nat) (i : Int) (st : LoopState), Inv st.2.1 → (hi - i).toNat < n →
      forLoop cond body n i st ≠ .fuel := by
  intro n
  induction n with
  | zero => intro i st _ hn; omega
  | succ n ih =>
    intro i st hinv hn
    rw [forLoop_succ]
    refine Outcome.bind_ne_fuel _ _ (hc i st.2.2).1 ?_
    intro c hcond
    by_cases hc1 : c.1 = true
    · rw [if_pos hc1]
      have hlt : i < hi := by
        by_contra hcon
        have := (hc i st.2.2).2 c hcond (by omega)
        rw [this] at hc1
        cases hc1
      refine Outcome.bind_ne_fuel _ _ (hb _ _ _ hinv).1 ?_
      intro st1 hst1
      exact ih (i + 1) st1 ((hb _ _ _ hinv).2 st1 hst1) (by omega)
    · rw [if_neg hc1]
      intro h
      cases h

/-- Safety rule for loops: a loop does not panic when neither its condition nor
its body does. -/
theorem forLoop_ne_panic (cond : Int → Rand → Outcome (Bool × Rand))
    (body : List Regexp → List Int → Rand → Outcome LoopState)
    (Inv : List Regexp → Prop)
    (hc : ∀ i rnd, cond i rnd ≠ .panic)
    (hb : ∀ sub l rnd, Inv sub → body sub l rnd ≠ .panic ∧
      ∀ st', body sub l rnd = .ok st' → Inv st'.2.1) :
    ∀ (n : Nat) (i : Int) (st : LoopState), Inv st.2.1 →
      forLoop cond body n i st ≠ .panic := by
  intro n
  induction n with
  | zero => intro i st _ h; cases h
  | succ n ih =>
    intro i st hinv
    rw [forLoop_succ]
    refine Outcome.bind_ne_panic _ _ (hc i st.2.2) ?_
    intro c _
    by_cases hc1 : c.1 = true
    · rw [if_pos hc1]
      refine Outcome.bind_ne_panic _ _ (hb _ _ _ hinv).1 ?_
      intro st1 hst1
      exact ih (i + 1) st1 ((hb _ _ _ hinv).2 st1 hst1)
    · rw [if_neg hc1]
      intro h
      cases h

theorem drawCond_ne_fuel (bound : Int) (i : Int) (rnd : Rand) :
    drawCond bound i rnd ≠ .fuel ∧
      ∀ c, drawCond bound i rnd = .ok c → bound - 1 ≤ i → c.1 = false := by
  unfold drawCond
  refine ⟨Outcome.bind_ne_fuel _ _ (Intn_ne_fuel _ _) (fun _ _ h => by cases h), ?_⟩
  intro c h hi
  obtain ⟨p, hp, h⟩ := Outcome.bind_eq_ok _ _ _ h
  have hb := Intn_eq_ok rnd bound p hp
  simp only [Outcome.ok.injEq] at h
  subst h
  simp only [decide_eq_false_iff_not, not_lt]
  omega

theorem countCond_ne_fuel (count : Int) (i : Int) (rnd : Rand) :
    countCond count i rnd ≠ .fuel ∧
      ∀ c, countCond count i rnd = .ok c → count ≤ i → c.1 = false := by
  unfold countCond
  refine ⟨(fun h => by cases h), ?_⟩
  intro c h hi
  simp only [Outcome.ok.injEq] at h
  subst h
  simp only [decide_eq_false_iff_not, not_lt]
  exact hi

/-! ## Termination -/

theorem generate_ne_fuel (limit : Int) (M : Nat) (hM : limit ≤ (M : Int)) (hM1 : 1 ≤ M) :
    ∀ (n : Nat) (re : Regexp) (rnd : Rand), maxMin re ≤ M → depth re + M + 1 ≤ n →
      generate limit n re rnd ≠ .fuel := by
  intro n
  induction n with
  | zero => intro re rnd _ h; omega
  | succ n ih =>
    intro re rnd hmin hfuel
    obtain ⟨op, sub, rune, mn, mx⟩ := re
    rw [depth_mk] at hfuel
    rw [maxMin_mk] at hmin
    have hmn : mn.toNat ≤ M := le_trans (Nat.le_max_left _ _) hmin
    have hP0 : maxMinList sub ≤ M ∧ depthList sub + M + 1 ≤ n :=
      ⟨le_trans (Nat.le_max_right _ _) hmin, by omega⟩
    have hbody : ∀ (s : List Regexp) (l : List Int) (rnd : Rand),
        (maxMinList s ≤ M ∧ depthList s + M + 1 ≤ n) →
        pass (generate limit n) s l rnd ≠ .fuel ∧
          ∀ st', pass (generate limit n) s l rnd = .ok st' →
            (maxMinList st'.2.1 ≤ M ∧ depthList st'.2.1 + M + 1 ≤ n) := by
      intro s l rnd hs
      refine ⟨pass_ne_fuel _ s (fun c hc rnd => ih c rnd
        (le_trans (maxMinList_mem s c hc) hs.1)
        (by have := depthList_mem s c hc; omega)) l rnd, ?_⟩
      intro st' hst
      have hf := pass_frame _ (generate_frame limit n) s l rnd st' hst
      rw [MaxOnlyList_maxMin _ _ hf, MaxOnlyList_depth _ _ hf]
      exact hs
    have hloop : ∀ (cond : Int → Rand → Outcome (Bool × Rand)) (hi : Int),
        (∀ i rnd, cond i rnd ≠ .fuel ∧ ∀ c, cond i rnd = .ok c → hi ≤ i → c.1 = false) →
        hi.toNat < n → ∀ rnd0 : Rand,
        forLoop cond (pass (generate limit n)) n 0 ([], sub, rnd0) ≠ .fuel :=
      fun cond hi hc hhi rnd0 =>
        forLoop_ne_fuel cond _ (fun s => maxMinList s ≤ M ∧ depthList s + M + 1 ≤ n) hi hc hbody
          n 0 ([], sub, rnd0) hP0 (by simpa using hhi)
    cases op
    case OpLiteral => rw [generate_literal]; intro h; cases h
    case OpCharClass =>
      rw [generate_charClass]
      refine Outcome.bind_ne_fuel _ _ (pairs_ne_fuel _) (fun cls _ => ?_)
      exact Outcome.bind_ne_fuel _ _ (randRune_ne_fuel _ _) (fun _ _ h => by cases h)
    case OpCapture =>
      cases sub with
      | nil => intro h; cases h
      | cons c rest =>
        rw [generate_capture]
        refine Outcome.bind_ne_fuel _ _ (ih c rnd ?_ ?_) (fun _ _ h => by cases h)
        · exact le_trans (maxMinList_mem _ c (List.mem_cons_self _ _)) hP0.1
        · have := depthList_mem (c :: rest) c (List.mem_cons_self _ _)
          omega
    case OpStar =>
      rw [generate_star]
      have hw := wrapInt_le (limit + 1)
      exact Outcome.bind_ne_fuel _ _
        (hloop (drawCond (wrapInt (limit + 1))) (wrapInt (limit + 1) - 1) (drawCond_ne_fuel _)
          (by omega) rnd)
        (fun _ _ h => by cases h)
    case OpPlus =>
      rw [generate_plus]
      refine Outcome.bind_ne_fuel _ _ (Intn_ne_fuel _ _) (fun d hd => ?_)
      have hb := Intn_eq_ok _ _ d hd
      exact Outcome.bind_ne_fuel _ _
        (hloop (countCond (d.1 + 1)) (d.1 + 1) (countCond_ne_fuel _) (by omega) d.2)
        (fun _ _ h => by cases h)
    case OpQuest =>
      rw [generate_quest]
      exact Outcome.bind_ne_fuel _ _
        (hloop (drawCond 2) (2 - 1) (drawCond_ne_fuel _) (by omega) rnd)
        (fun _ _ h => by cases h)
    case OpRepeat =>
      rw [generate_repeat]
      have heff : (if mx = -1 ∨ limit < mx then limit else mx) ≤ limit := by
        split <;> omega
      refine Outcome.bind_ne_fuel _ _ ?_ (fun d hd => ?_)
      · by_cases hgt : (if mx = -1 ∨ limit < mx then limit else mx) > mn
        · rw [if_pos hgt]; exact Intn_ne_fuel _ _
        · rw [if_neg hgt]; intro h; cases h
      · have hd1 : d.1 ≤ (M : Int) := by
          by_cases hgt : (if mx = -1 ∨ limit < mx then limit else mx) > mn
          · rw [if_pos hgt] at hd
            have hb := Intn_eq_ok _ _ d hd
            have hw := wrapInt_le ((if mx = -1 ∨ limit < mx then limit else mx) + 1)
            omega
          · rw [if_neg hgt] at hd
            simp only [Outcome.ok.injEq] at hd
            subst hd
            exact Int.ofNat_nonneg M
        have hcount : (max mn d.1).toNat < n := by
          have h1 : max mn d.1 ≤ (M : Int) := max_le (by omega) hd1
          omega
        rw [repeatCond_eq]
        exact Outcome.bind_ne_fuel _ _
          (hloop (countCond (max mn d.1)) (max mn d.1) (countCond_ne_fuel _) hcount d.2)
          (fun _ _ h => by cases h)
    case OpConcat =>
      rw [generate_concat]
      exact Outcome.bind_ne_fuel _ _ (hbody sub [] rnd hP0).1 (fun _ _ h => by cases h)
    case OpAlternate =>
      rw [generate_alternate]
      refine Outcome.bind_ne_fuel _ _ (Intn_ne_fuel _ _) (fun d _ => ?_)
      cases hget : sub.get? d.1.toNat with
      | none => intro h; cases h
      | some c =>
        have hc := List.get?_mem hget
        refine Outcome.bind_ne_fuel _ _ (ih c d.2 ?_ ?_) (fun _ _ h => by cases h)
        · exact le_trans (maxMinList_mem _ c hc) hP0.1
        · have := depthList_mem sub c hc
          omega
    all_goals
      intro h
      replace h : Outcome.ok ([], _, rnd) = Outcome.fuel := h
      cases h

/-- C19: `Generate` terminates for every tree, every limit and every state of the
random source: with a budget above `budget limit re`, which grows with the depth
of the tree and with the larger of the limit and the largest `Min`, the call
either returns or panics; no loop, the star and quest loops with their redrawn
bounds included, runs longer. -/
theorem Generate_terminates (g : Generator) (n : Nat) (hn : budget g.limit g.re < n) :
    Generate n g = .panic ∨ ∃ s g', Generate n g = .ok (s, g') := by
  have hM : g.limit ≤ ((Nat.max g.limit.toNat (maxMin g.re) + 1 : Nat) : Int) := by
    have h1 : g.limit.toNat ≤ Nat.max g.limit.toNat (maxMin g.re) := Nat.le_max_left _ _
    omega
  have hne := generate_ne_fuel g.limit _ hM (by omega) n g.re g.rand
    (le_trans (Nat.le_max_right _ _) (Nat.le_succ _)) (by unfold budget at hn; omega)
  unfold Generate
  cases hg : generate g.limit n g.re g.rand with
  | ok p => exact Or.inr ⟨_, _, rfl⟩
  | panic => exact Or.inl rfl
  | fuel => exact absurd hg hne

theorem Generate_terminates_witness :
    Generate 14 ⟨aStar, constRand 7, defaultLimit⟩ = .panic ∨
      ∃ s g', Generate 14 ⟨aStar, constRand 7, defaultLimit⟩ = .ok (s, g') :=
  Generate_terminates ⟨aStar, constRand 7, defaultLimit⟩ 14 (by decide)

/-! ## Safety -/

theorem drawCond_ne_panic (bound : Int) (hb : 0 < bound) (i : Int) (rnd : Rand) :
    drawCond bound i rnd ≠ .panic := by
  unfold drawCond
  rw [Intn_of_pos rnd _ hb]
  intro h
  cases h

theorem generate_ne_panic (limit : Int) (hlim : 1 ≤ limit) (hlim2 : limit < maxInt) :
    ∀ (n : Nat) (re : Regexp) (rnd : Rand), safeTree re = true →
      generate limit n re rnd ≠ .panic := by
  intro n
  induction n with
  | zero => intro re rnd _; rw [generate_zero]; intro h; cases h
  | succ n ih =>
    intro re rnd hs
    obtain ⟨op, sub, rune, mn, mx⟩ := re
    unfold safeTree at hs
    rw [allNodes_mk, Bool.and_eq_true] at hs
    have hchild : ∀ c ∈ sub, ∀ rnd : Rand, generate limit n c rnd ≠ .panic :=
      fun c hc rnd => ih c rnd (by unfold safeTree; exact allNodesList_mem _ sub hs.2 c hc)
    have hbody : ∀ (s : List Regexp) (l : List Int) (rnd : Rand),
        allNodesList nodeSafe s = true →
        pass (generate limit n) s l rnd ≠ .panic ∧
          ∀ st', pass (generate limit n) s l rnd = .ok st' →
            allNodesList nodeSafe st'.2.1 = true := by
      intro s l rnd hsafe
      refine ⟨pass_ne_panic _ s (fun c hc rnd => ih c rnd
        (by unfold safeTree; exact allNodesList_mem _ s hsafe c hc)) l rnd, ?_⟩
      intro st' hst
      rw [MaxOnlyList_safe _ _ (pass_frame _ (generate_frame limit n) s l rnd st' hst)]
      exact hsafe
    have hloop : ∀ (cond : Int → Rand → Outcome (Bool × Rand)),
        (∀ i rnd, cond i rnd ≠ .panic) → ∀ rnd0 : Rand,
        forLoop cond (pass (generate limit n)) n 0 ([], sub, rnd0) ≠ .panic :=
      fun cond hc rnd0 =>
        forLoop_ne_panic cond _ (fun s => allNodesList nodeSafe s = true) hc hbody
          n 0 ([], sub, rnd0) hs.2
    cases op
    case OpLiteral => rw [generate_literal]; intro h; cases h
    case OpCharClass =>
      have hcls := hs.1
      simp only [nodeSafe, isClass] at hcls
      cases hp : pairs rune with
      | ok cls =>
        rw [hp] at hcls
        obtain ⟨hne, hall⟩ := classOk_spec cls hcls
        obtain ⟨v, rnd', hr, _⟩ := randRune_inRange_aux cls rnd hne hall
        rw [generate_charClass, hp]
        simp only [Outcome.bind_ok, hr]
        intro h
        cases h
      | panic => rw [hp] at hcls; cases hcls
      | fuel => rw [hp] at hcls; cases hcls
    case OpCapture =>
      cases sub with
      | nil => simp [nodeSafe] at hs
      | cons c rest =>
        rw [generate_capture]
        exact Outcome.bind_ne_panic _ _ (hchild c (List.mem_cons_self _ _) rnd)
          (fun _ _ h => by cases h)
    case OpStar =>
      rw [generate_star]
      rw [wrapInt_of_le _ (by omega)]
      exact Outcome.bind_ne_panic _ _
        (hloop (drawCond (limit + 1)) (drawCond_ne_panic _ (by omega)) rnd)
        (fun _ _ h => by cases h)
    case OpPlus =>
      rw [generate_plus, Intn_of_pos rnd _ (by omega)]
      simp only [Outcome.bind_ok]
      exact Outcome.bind_ne_panic _ _
        (hloop (countCond _) (fun _ _ h => by cases h) _) (fun _ _ h => by cases h)
    case OpQuest =>
      rw [generate_quest]
      exact Outcome.bind_ne_panic _ _
        (hloop (drawCond 2) (drawCond_ne_panic _ (by omega)) rnd)
        (fun _ _ h => by cases h)
    case OpRepeat =>
      have hmn : 0 ≤ mn := by simpa [nodeSafe] using hs.1
      rw [generate_repeat]
      refine Outcome.bind_ne_panic _ _ ?_ (fun d _ => ?_)
      · have heff : (if mx = -1 ∨ limit < mx then limit else mx) ≤ limit := by
          split <;> omega
        by_cases hgt : (if mx = -1 ∨ limit < mx then limit else mx) > mn
        · rw [if_pos hgt, wrapInt_of_le _ (by omega), Intn_of_pos rnd _ (by omega)]
          intro h; cases h
        · rw [if_neg hgt]; intro h; cases h
      · exact Outcome.bind_ne_panic _ _
          (hloop (repeatCond mn d.1) (fun _ _ h => by cases h) _) (fun _ _ h => by cases h)
    case OpConcat =>
      rw [generate_concat]
      exact Outcome.bind_ne_panic _ _ (hbody sub [] rnd hs.2).1 (fun _ _ h => by cases h)
    case OpAlternate =>
      have hne : sub ≠ [] := by
        intro hnil
        rw [hnil] at hs
        simp [nodeSafe] at hs
      have hlen : 0 < (sub.length : Int) := by
        have : 0 < sub.length := List.length_pos.mpr hne
        exact_mod_cast this
      have hb := Intn_bounds rnd _ hlen
      have hidx : ((rnd 0 : Int) % (sub.length : Int)).toNat < sub.length := by omega
      rw [generate_alternate, Intn_of_pos rnd _ hlen]
      simp only [Outcome.bind_ok]
      rw [List.get?_eq_get hidx]
      exact Outcome.bind_ne_panic _ _ (hchild _ (List.get_mem _ _ _) _) (fun _ _ h => by cases h)
    all_goals
      intro h
      replace h : Outcome.ok ([], _, rnd) = Outcome.panic := h
      cases h

/-- C20, amended: if the limit is at least 1 and below the largest `int`, every
character class node has a non-empty, even-length endpoint list with each start
`<=` end, every alternation has at least one child, and the tree has the shape
the parser gives it (a capture has its subexpression, a repeat has `0 <= Min`),
then `Generate` returns: every `Intn` is called with a positive bound and every
index is in range, so no panic branch is reached. -/
theorem Generate_safe (g : Generator) (n : Nat) (hlim : 1 ≤ g.limit)
    (hlim2 : g.limit < maxInt) (hsafe : safeTree g.re = true)
    (hn : budget g.limit g.re ≤ n) :
    ∃ s g', Generate n g = .ok (s, g') := by
  have hM : g.limit ≤ ((Nat.max g.limit.toNat (maxMin g.re) : Nat) : Int) := by
    have h1 : g.limit.toNat ≤ Nat.max g.limit.toNat (maxMin g.re) := Nat.le_max_left _ _
    omega
  have hM1 : 1 ≤ Nat.max g.limit.toNat (maxMin g.re) := by
    have h1 : g.limit.toNat ≤ Nat.max g.limit.toNat (maxMin g.re) := Nat.le_max_left _ _
    omega
  have hnf := generate_ne_fuel g.limit _ hM hM1 n g.re g.rand (Nat.le_max_right _ _)
    (by unfold budget at hn; omega)
  have hnp := generate_ne_panic g.limit hlim hlim2 n g.re g.rand hsafe
  unfold Generate
  cases hg : generate g.limit n g.re g.rand with
  | ok p => exact ⟨_, _, rfl⟩
  | panic => exact absurd hg hnp
  | fuel => exact absurd hg hnf

theorem Generate_safe_witness :
    ∃ s g', Generate 13 ⟨aOrB, constRand 3, defaultLimit⟩ = .ok (s, g') :=
  Generate_safe ⟨aOrB, constRand 3, defaultLimit⟩ 13 (by decide) (by decide) (by decide)
    (by decide)

/-- C20 as stated fails: the tree of `a*` has no character class and no
alternation and the largest `int` is a limit of at least 1 that `Limit` accepts,
yet `Generate` panics: the star case asks `Intn` for a draw with the bound
`g.limit+1`, which has overflowed to the smallest `int`. -/
theorem star_overflow_panics :
    drawOkTree aStar = true ∧ safeTree aStar = true ∧ 1 ≤ maxInt ∧
      (Limit ⟨aStar, constRand 0, defaultLimit⟩ maxInt).limit = maxInt ∧
      wrapInt (maxInt + 1) = minInt ∧ minInt ≤ 0 ∧
      (Generate 3 (Limit ⟨aStar, constRand 0, defaultLimit⟩ maxInt)).isPanic = true := by
  decide

end Regen
